import Mathlib

/-!
Verification of the decimal64 fixed-point library
(src/shared/include/decimal64/decimal64.hpp).

The C++ code is shallowly embedded: `int64_t` values become `Int` (all
division and remainder operations in the source are C truncating division,
embedded as `Int.tdiv` / `Int.tmod`); the places where the claims exercise
signed overflow model it explicitly by wrapping modulo 2^64.  Parsing is
embedded as a function over `List Char`, mirroring the state machine of
`impl::ParseUnpacked` character by character.
-/

namespace Decimal64

/-- Largest signed 64-bit integer, `impl::kMaxInt64`. -/
def kMaxInt64 : Int := 9223372036854775807

/-- Smallest signed 64-bit integer, `impl::kMinInt64`. -/
def kMinInt64 : Int := -9223372036854775808

/-- Power of ten, `Pow10` / `kPow10` (the compile-time table `kPowSeries10`). -/
def Pow10 (n : Nat) : Int := 10 ^ n

/-- Two to the 64, used when modelling two's-complement wraparound. -/
def twoPow64 : Int := 18446744073709551616

/-- Wrap an exact integer into the signed 64-bit range, modelling what a
two's-complement machine computes when a C++ signed operation overflows. -/
def wrap64 (z : Int) : Int := (z + 9223372036854775808) % twoPow64 - 9223372036854775808

/-- Constexpr absolute value, `impl::Abs` (exact; its C++ contract excludes
`kMinInt64`, whose negation overflows). -/
def iabs (x : Int) : Int := if 0 ≤ x then x else -x

/-- Absolute value as computed by a two's-complement machine: `impl::Abs`
including the wraparound that C++ exhibits at `kMinInt64`. -/
def iabsWrap (x : Int) : Int := if 0 ≤ x then x else wrap64 (-x)

/-- Predicate `impl::IsMultOverflowPositive` (both arguments positive). -/
def IsMultOverflowPositive (value1 value2 : Int) : Bool :=
  decide (kMaxInt64.tdiv value2 < value1) && decide (kMaxInt64.tdiv value1 < value2)

/-- Predicate `impl::IsMultOverflow`, branch for branch from the source. -/
def IsMultOverflow (value1 value2 : Int) : Bool :=
  if value1 = 0 ∨ value2 = 0 then false
  else if decide (value1 < 0) ≠ decide (value2 < 0) then
    if value1 = kMinInt64 then decide (1 < value2)
    else if value2 = kMinInt64 then decide (1 < value1)
    else if value1 < 0 then IsMultOverflowPositive (-value1) value2
    else if value2 < 0 then IsMultOverflowPositive value1 (-value2)
    else IsMultOverflowPositive value1 value2
  else if value1 < 0 ∧ value2 < 0 then
    if value1 = kMinInt64 then decide (value2 < -1)
    else if value2 = kMinInt64 then decide (value1 < -1)
    else IsMultOverflowPositive (-value1) (-value2)
  else IsMultOverflowPositive value1 value2

/-- The eight rounding policies of the library. -/
inductive Policy where
  | nullP | defP | halfDown | halfUp | halfEven | ceiling | floorP | roundUp
  deriving DecidableEq, Repr

/-- Each policy's `DivRounded(output, a, b)`: returns `(output, ok)`,
transcribed branch for branch from the source classes.  `RoundDownRoundPolicy`
inherits `NullRoundPolicy`, so `nullP` stands for both. -/
def DivRounded (p : Policy) (a b : Int) : Int × Bool :=
  match p with
  | .nullP => (a.tdiv b, true)
  | .defP =>
    let divisorCorr := iabs (b.tdiv 2)
    if 0 ≤ a then
      if divisorCorr ≤ kMaxInt64 - a then ((a + divisorCorr).tdiv b, true)
      else (0, false)
    else
      if divisorCorr ≤ -(kMinInt64 - a) then ((a - divisorCorr).tdiv b, true)
      else (0, false)
  | .halfDown =>
    let divisorCorr := (iabs b).tdiv 2
    let remainder := (iabs a).tmod (iabs b)
    if 0 ≤ a then
      if divisorCorr ≤ kMaxInt64 - a then
        if divisorCorr < remainder then ((a + divisorCorr).tdiv b, true)
        else (a.tdiv b, true)
      else (0, false)
    else
      if divisorCorr ≤ -(kMinInt64 - a) then ((a - divisorCorr).tdiv b, true)
      else (0, false)
  | .halfUp =>
    let divisorCorr := (iabs b).tdiv 2
    let remainder := (iabs a).tmod (iabs b)
    if 0 ≤ a then
      if divisorCorr ≤ kMaxInt64 - a then
        if divisorCorr ≤ remainder then ((a + divisorCorr).tdiv b, true)
        else (a.tdiv b, true)
      else (0, false)
    else
      if divisorCorr ≤ -(kMinInt64 - a) then
        if remainder < divisorCorr then ((a - remainder).tdiv b, true)
        else if remainder = divisorCorr then ((a + divisorCorr).tdiv b, true)
        else ((a + remainder - iabs b).tdiv b, true)
      else (0, false)
  | .halfEven =>
    let divisorDiv2 := (iabs b).tdiv 2
    let remainder := (iabs a).tmod (iabs b)
    if remainder = 0 then (a.tdiv b, true)
    else if 0 ≤ a then
      if divisorDiv2 < remainder then ((a - remainder + iabs b).tdiv b, true)
      else if remainder < divisorDiv2 then ((a - remainder).tdiv b, true)
      else if (iabs (a.tdiv b)).tmod 2 = 0 then (a.tdiv b, true)
      else ((a - remainder + iabs b).tdiv b, true)
    else
      if divisorDiv2 < remainder then ((a + remainder - iabs b).tdiv b, true)
      else if remainder < divisorDiv2 then ((a + remainder).tdiv b, true)
      else if (iabs (a.tdiv b)).tmod 2 = 0 then (a.tdiv b, true)
      else ((a + remainder - iabs b).tdiv b, true)
  | .ceiling =>
    let remainder := (iabs a).tmod (iabs b)
    if remainder = 0 then (a.tdiv b, true)
    else if 0 ≤ a then ((a + iabs b).tdiv b, true)
    else (a.tdiv b, true)
  | .floorP =>
    let remainder := (iabs a).tmod (iabs b)
    if remainder = 0 then (a.tdiv b, true)
    else if 0 ≤ a then ((a - remainder).tdiv b, true)
    else ((a + remainder - iabs b).tdiv b, true)
  | .roundUp =>
    let remainder := (iabs a).tmod (iabs b)
    if remainder = 0 then (a.tdiv b, true)
    else if 0 ≤ a then ((a + iabs b).tdiv b, true)
    else ((a - iabs b).tdiv b, true)

/-- Truncation toward zero of a rational, what `static_cast<int64_t>` does to
a real value. -/
def truncRat (q : ℚ) : Int := if 0 ≤ q then ⌊q⌋ else ⌈q⌉

/-- Each policy's `Round(value)` on a real argument, with the C++ `long double`
arithmetic modelled as exact rational arithmetic.  Transcribed from the
`Round` member of each policy class (`impl::Floor`/`impl::Ceil` compute the
mathematical floor and ceiling). -/
def PolicyRound (p : Policy) (q : ℚ) : Int :=
  match p with
  | .nullP => truncRat q
  | .defP => if q < 0 then truncRat (q - 1/2) else truncRat (q + 1/2)
  | .halfDown =>
    if 0 ≤ q then (if 1/2 < q - ⌊q⌋ then ⌈q⌉ else ⌊q⌋)
    else (if ⌈q⌉ - q < 1/2 then ⌈q⌉ else ⌊q⌋)
  | .halfUp =>
    if 0 ≤ q then (if 1/2 ≤ q - ⌊q⌋ then ⌈q⌉ else ⌊q⌋)
    else (if ⌈q⌉ - q ≤ 1/2 then ⌈q⌉ else ⌊q⌋)
  | .halfEven =>
    if 0 ≤ q then
      (if 1/2 < q - ⌊q⌋ then ⌈q⌉ else if q - ⌊q⌋ < 1/2 then ⌊q⌋
       else if ⌊q⌋ % 2 = 0 then ⌊q⌋ else ⌈q⌉)
    else
      (if 1/2 < ⌈q⌉ - q then ⌊q⌋ else if ⌈q⌉ - q < 1/2 then ⌈q⌉
       else if ⌈q⌉ % 2 = 0 then ⌈q⌉ else ⌊q⌋)
  | .ceiling => ⌈q⌉
  | .floorP => ⌊q⌋
  | .roundUp => if 0 ≤ q then ⌈q⌉ else ⌊q⌋

/-- Function `impl::MultDiv<RoundPolicy>(value1, value2, divisor)`:
`(value1 * value2) / divisor` computed with 64-bit operations.  The final
`long double` fallback is modelled as exact rational arithmetic; every claim
settled here stays on the integer paths. -/
def MultDiv (p : Policy) (value1 value2 divisor : Int) : Int :=
  let value1int := value1.tdiv divisor
  let value1dec := value1.tmod divisor
  let value2int := value2.tdiv divisor
  let value2dec := value2.tmod divisor
  let result := value1 * value2int + value1int * value2dec
  if value1dec = 0 ∨ value2dec = 0 then result
  else if IsMultOverflow value1dec value2dec = false then
    let (q, ok) := DivRounded p (value1dec * value2dec) divisor
    let resDecPart := if ok then q else 0
    result + resDecPart
  else
    let c1 := Int.gcd value1dec divisor
    let value1dec' := if c1 ≠ 1 then value1dec.tdiv c1 else value1dec
    let divisor' := if c1 ≠ 1 then divisor.tdiv c1 else divisor
    let c2 := Int.gcd value2dec divisor'
    let value2dec' := if c2 ≠ 1 then value2dec.tdiv c2 else value2dec
    let divisor'' := if c2 ≠ 1 then divisor'.tdiv c2 else divisor'
    if IsMultOverflow value1dec' value2dec' = false then
      let (q, ok) := DivRounded p (value1dec' * value2dec') divisor''
      if ok then result + q
      else result + PolicyRound p ((value1dec' * value2dec' : ℚ) / (divisor'' : ℚ))
    else
      result + PolicyRound p ((value1dec' * value2dec' : ℚ) / (divisor'' : ℚ))

/-- Character classifier `impl::IsSpace`. -/
def IsSpaceChar (c : Char) : Bool :=
  c = ' ' || c = '\t' || c = '\r' || c = '\n' || c = '\x0b'

/-- Parse error codes, `impl::ParseErrorCode`. -/
inductive PErr where
  | wrongChar | noDigits | overflow | space | trailingJunk | boundaryDot | rounding
  deriving DecidableEq, Repr

/-- Parser states, `impl::ParseState` (`kEnd` is represented by the loop
returning, carrying the offending character). -/
inductive PState where
  | signS | beforeFirstDig | leadingZeros | beforeDec | afterDec | ignoringAfterDec | endS
  deriving DecidableEq, Repr

/-- Parse options, `impl::ParseOptions` (a flag set). -/
structure POpts where
  allowSpaces : Bool
  allowTrailingJunk : Bool
  allowBoundaryDot : Bool
  allowRounding : Bool
  deriving DecidableEq, Repr

/-- Strict parsing: all options off (`ParseOptions::kNone`). -/
def strictOpts : POpts := ⟨false, false, false, false⟩

/-- Options of `Decimal::FromStringPermissive`. -/
def permissiveOpts : POpts := ⟨true, false, true, true⟩

/-- Options used by the `istream` input operator. -/
def streamOpts : POpts := ⟨false, true, false, false⟩

/-- Accumulator of `impl::ParseUnpacked`'s main loop: the local variables of
the source function. -/
structure PAcc where
  before : Int := 0
  after : Int := 0
  isNeg : Bool := false
  pos : Int := -1
  err : Option PErr := none
  beforeCnt : Nat := 0
  afterCnt : Nat := 0
  deriving DecidableEq, Repr

/-- Result of one loop iteration: continue in a state, or transition to
`kEnd` (the offending character is pushed back by the caller). -/
inductive StepRes where
  | cont (st : PState) (a : PAcc)
  | ended (a : PAcc)
  deriving DecidableEq, Repr

/-- Numeric value of a digit character. -/
def digitVal (c : Char) : Int := (c.toNat : Int) - 48

/-- One iteration of the `switch (state)` of `impl::ParseUnpacked`, for a
character `c` (never `'\0'`; the caller breaks on it first). -/
def stepChar (opts : POpts) (st : PState) (a : PAcc) (c : Char) : StepRes :=
  match st with
  | .signS =>
    if c = '-' then .cont .beforeFirstDig { a with isNeg := true }
    else if c = '+' then .cont .beforeFirstDig a
    else if c = '0' then .cont .leadingZeros { a with beforeCnt := 1 }
    else if '1' ≤ c ∧ c ≤ '9' then
      .cont .beforeDec { a with before := digitVal c, beforeCnt := 1 }
    else if c = '.' then
      if opts.allowBoundaryDot = false ∧ a.err = none then
        .cont .afterDec { a with err := some .boundaryDot }
      else .cont .afterDec a
    else if IsSpaceChar c then
      if opts.allowSpaces = false then .ended { a with err := some .space }
      else .cont .signS a
    else .ended { a with err := some .wrongChar }
  | .beforeFirstDig =>
    if c = '0' then .cont .leadingZeros { a with beforeCnt := 1 }
    else if '1' ≤ c ∧ c ≤ '9' then
      .cont .beforeDec { a with before := digitVal c, beforeCnt := 1 }
    else if c = '.' then
      if opts.allowBoundaryDot = false ∧ a.err = none then
        .cont .afterDec { a with err := some .boundaryDot }
      else .cont .afterDec a
    else .ended { a with err := some .wrongChar }
  | .leadingZeros =>
    if c = '0' then .cont .leadingZeros a
    else if '1' ≤ c ∧ c ≤ '9' then .cont .beforeDec { a with before := digitVal c }
    else if c = '.' then .cont .afterDec a
    else .ended a
  | .beforeDec =>
    if '0' ≤ c ∧ c ≤ '9' then
      if a.beforeCnt < 18 then
        .cont .beforeDec { a with before := 10 * a.before + digitVal c,
                                  beforeCnt := a.beforeCnt + 1 }
      else if a.err = none then .cont .beforeDec { a with err := some .overflow }
      else .cont .beforeDec a
    else if c = '.' then .cont .afterDec a
    else .ended a
  | .afterDec =>
    if '0' ≤ c ∧ c ≤ '9' then
      if a.afterCnt < 18 then
        .cont .afterDec { a with after := 10 * a.after + digitVal c,
                                 afterCnt := a.afterCnt + 1 }
      else
        let a1 := if opts.allowRounding = false ∧ a.err = none then
                    { a with err := some .rounding } else a
        let a2 := if '5' ≤ c then { a1 with after := a1.after + 1 } else a1
        .cont .ignoringAfterDec a2
    else
      if opts.allowBoundaryDot = false ∧ a.afterCnt = 0 ∧ a.err = none then
        .ended { a with err := some .boundaryDot }
      else .ended a
  | .ignoringAfterDec =>
    if '0' ≤ c ∧ c ≤ '9' then .cont .ignoringAfterDec a
    else .ended a
  | .endS => .ended a

/-- The `while (state != kEnd)` loop of `impl::ParseUnpacked`.  Returns the
final accumulator and state; the third component is `some (c, rest)` when the
loop left via `kEnd` on offending character `c` (which the source pushes back
and the trailing-junk scan re-reads), `none` when it hit `'\0'` (end of the
character sequence, or an embedded NUL byte). -/
def mainLoop (opts : POpts) : PState → PAcc → List Char → PAcc × PState × Option (Char × List Char)
  | st, a, [] => (a, st, none)
  | st, a, c :: rest =>
    if c = '\x00' then (a, st, none)
    else
      let a1 := if a.err = none then { a with pos := a.pos + 1 } else a
      match stepChar opts st a1 c with
      | .cont st' a2 => mainLoop opts st' a2 rest
      | .ended a2 => (a2, .endS, some (c, rest))

/-- The trailing-junk scan after the main loop (`while (true) { ... }` in the
source); returns the possibly updated error and position. -/
def junkScan : Option PErr → Int → List Char → Option PErr × Int
  | e, p, [] => (e, p)
  | e, p, c :: rest =>
    if c = '\x00' then (e, p)
    else if IsSpaceChar c = false then (some .trailingJunk, p + 1)
    else junkScan e (p + 1) rest

/-- Result record `impl::ParseUnpackedResult`. -/
structure UnpackedRes where
  before : Int
  after : Int
  decimalDigits : Nat
  isNeg : Bool
  error : Option PErr
  errorPos : Int
  deriving DecidableEq, Repr

/-- Function `impl::ParseUnpacked`, assembled from the main loop, the
trailing-junk scan and the final error checks of the source. -/
def ParseUnpacked (opts : POpts) (l : List Char) : UnpackedRes :=
  let (a, st, rem) := mainLoop opts .signS {} l
  let (err0, pos0) :=
    match rem with
    | none => (a.err, a.pos)
    | some (c, rest) =>
      if a.err = none ∧ opts.allowTrailingJunk = false then
        let e0 : Option PErr := if opts.allowSpaces = false then some .space else none
        junkScan e0 (a.pos - 1) (c :: rest)
      else (a.err, a.pos)
  let err1 := if err0 = none ∧ a.beforeCnt = 0 ∧ a.afterCnt = 0 then some PErr.noDigits else err0
  let err2 := if err1 = none ∧ st = .afterDec ∧ opts.allowBoundaryDot = false ∧ a.afterCnt = 0
              then some PErr.boundaryDot else err1
  ⟨a.before, a.after, a.afterCnt, a.isNeg, err2, pos0⟩

/-- Helper `impl::FromUnpacked(before, after)` (two-argument overload),
returning the unbiased mantissa. -/
def FromUnpacked2 (Prec : Nat) (before after : Int) : Int :=
  if 0 < Prec then before * Pow10 Prec + after else before * Pow10 Prec

/-- Helper `impl::FromUnpacked(before, after, original_precision)`
(three-argument overload), returning the unbiased mantissa. -/
def FromUnpacked3 (p : Policy) (Prec : Nat) (before after : Int) (origPrec : Nat) : Int :=
  if origPrec ≤ Prec then
    FromUnpacked2 Prec before (after * Pow10 (Prec - origPrec))
  else
    let (q, ok) := DivRounded p after (Pow10 (origPrec - Prec))
    if ok then FromUnpacked2 Prec before q else 0

/-- Result of `impl::Parse` (`impl::ParseResult`): the mantissa of the decimal
(`0` on error, the value of the default-constructed `Decimal`), the error and
its position. -/
structure DParseRes where
  value : Int
  error : Option PErr
  errorPos : Int
  deriving DecidableEq, Repr

/-- Function `impl::Parse<Prec, RoundPolicy>`. -/
def Parse (Prec : Nat) (p : Policy) (opts : POpts) (l : List Char) : DParseRes :=
  let u := ParseUnpacked opts l
  match u.error with
  | some e => ⟨0, some e, u.errorPos⟩
  | none =>
    if kMaxInt64.tdiv (Pow10 Prec) ≤ u.before then ⟨0, some .overflow, 0⟩
    else if opts.allowRounding = false ∧ Prec < u.decimalDigits then ⟨0, some .rounding, 0⟩
    else
      let before := if u.isNeg then -u.before else u.before
      let after := if u.isNeg then -u.after else u.after
      ⟨FromUnpacked3 p Prec before after u.decimalDigits, none, 0⟩

/-- Mantissa of `Decimal<Prec>::Abs()`: `FromUnbiased(impl::Abs(value_))`,
with the overflow of `impl::Abs` at `kMinInt64` modelled as wraparound. -/
def DecimalAbs (v : Int) : Int := iabsWrap v

/-- Value of `Decimal<Prec>::Sign()`. -/
def Sign (v : Int) : Int := if 0 < v then 1 else if v < 0 then -1 else 0

/-- Mantissa-level `Decimal<Prec, RoundPolicy>::ToInteger()`. -/
def ToInteger (p : Policy) (Prec : Nat) (v : Int) : Int :=
  let (q, ok) := DivRounded p v (Pow10 Prec)
  if ok then q else 0

/-- Character for a single decimal digit. -/
def digitChar (n : Nat) : Char := Char.ofNat (48 + n)

/-- Decimal digits of a natural number, most significant first, with explicit
fuel (structural recursion; `fuel > log10 n` suffices).  This models the
decimal rendering that `fmt::format` performs on an integer. -/
def natDigitsAux : Nat → Nat → List Char
  | 0, _ => []
  | fuel + 1, n =>
    if n < 10 then [digitChar n]
    else natDigitsAux fuel (n / 10) ++ [digitChar (n % 10)]

/-- Decimal digits of a natural number, most significant first. -/
def natToDigits (n : Nat) : List Char := natDigitsAux (n + 1) n

/-- Decimal rendering of an integer with sign, as `fmt::format("{}", z)`. -/
def intToDigits (z : Int) : List Char :=
  if z < 0 then '-' :: natToDigits (-z).toNat else natToDigits z.toNat

/-- Zero-padded decimal rendering of width `w`, as `fmt::format("{:0{}}", n, w)`
for `n < 10^w`. -/
def padDigits (w : Nat) (n : Nat) : List Char :=
  List.replicate (w - (natToDigits n).length) '0' ++ natToDigits n

/-- One conditional division step of `impl::TrimTrailingZeros`. -/
def trimStep (k : Nat) (x : Int × Nat) : Int × Nat :=
  if x.1.tmod (Pow10 k) = 0 then (x.1.tdiv (Pow10 k), x.2 + k) else x

/-- Function `impl::TrimTrailingZeros<Prec>(after)`: returns the trimmed
`after` together with the number of zeros trimmed.  The `if constexpr
(Prec >= …)` guards of the source become runtime tests on `Prec`. -/
def TrimTrailingZeros (Prec : Nat) (after : Int) : Int × Nat :=
  if Prec = 0 then (after, 0)
  else if after = 0 then (after, Prec)
  else
    let x := (after, 0)
    let x := if 17 ≤ Prec then trimStep 16 x else x
    let x := if 9 ≤ Prec then trimStep 8 x else x
    let x := if 5 ≤ Prec then trimStep 4 x else x
    let x := if 3 ≤ Prec then trimStep 2 x else x
    trimStep 1 x

/-- The fmt formatter for `Decimal<Prec>` (`fmt::formatter<…>::format`):
`trailingZeros = false` is the `"{}"` spec (trim trailing zeros),
`trailingZeros = true` is the `"{:f}"` spec (`ToStringTrailingZeros`).
`v` is the mantissa (`value_`); `before`/`after` come from `impl::AsUnpacked`,
which uses C division and remainder. -/
def FormatDec (Prec : Nat) (trailingZeros : Bool) (v : Int) : List Char :=
  let F := Pow10 Prec
  let before := v.tdiv F
  let after0 := v.tmod F
  let (after, afterDigits) :=
    if trailingZeros then (after0, Prec)
    else
      let (a, t) := TrimTrailingZeros Prec after0
      (a, Prec - t)
  if 0 < afterDigits then
    if Sign v = -1 then
      '-' :: (natToDigits (-before).toNat ++ '.' :: padDigits afterDigits (-after).toNat)
    else
      natToDigits before.toNat ++ '.' :: padDigits afterDigits after.toNat
  else intToDigits before

/-- Extends the pushed-back remainder of a `mainLoop` run by extra characters:
used to relate a run on `l ++ suffix` to the run on `l`. -/
def extendRem (j : List Char) : PAcc × PState × Option (Char × List Char) →
    PAcc × PState × Option (Char × List Char)
  | (a, st, none) => (a, st, none)
  | (a, st, some (c, r)) => (a, st, some (c, r ++ j))

/-- Rounding of a rational to the nearest integer with ties toward zero.
Modelled from the spec's policy table entry for `HalfDown` (used to state what
the code diverges from, not taken from the code). -/
def specHalfDown (q : ℚ) : Int := if 0 ≤ q then ⌈q - 1/2⌉ else ⌊q + 1/2⌋

/-- Rounding of a rational to the nearest integer with ties away from zero.
Modelled from the spec's policy table entries for `HalfUp` and for the
`Default` policy's halfway rule. -/
def specHalfUp (q : ℚ) : Int := if 0 ≤ q then ⌊q + 1/2⌋ else ⌈q - 1/2⌉

/-- A `std::basic_istream`, modelled as the characters still unread plus the
fail bit and the `skipws` flag.  End of file is the empty buffer (the
`StreamCharSequence` then yields `'\0'`); the read position after a parse is
not modelled, since the claims concern the fail bit and the target value. -/
structure IStream where
  buf : List Char
  failbit : Bool
  skipws : Bool
  deriving DecidableEq, Repr

/-- Whitespace for `std::ws` (the C locale's `isspace`). -/
def IsWsStd (c : Char) : Bool :=
  c = ' ' || c = '\t' || c = '\r' || c = '\n' || c = '\x0b' || c = '\x0c'

/-- Effect of `std::ws(is)` as performed by the input operator when the
stream has `skipws` set. -/
def StreamWs (s : IStream) : IStream :=
  if s.skipws then { s with buf := s.buf.dropWhile (fun c => IsWsStd c) } else s

/-- Characters a `StreamCharSequence` yields from a stream: a failed stream
yields nothing (`Get` returns `'\0'` when `!in.good()`). -/
def StreamInput (s : IStream) : List Char :=
  if s.failbit then [] else s.buf

/-- The stream input operator `operator>>(istream&, Decimal&)`:  skips leading
whitespace when the stream has `skipws` set, parses with
`kAllowTrailingJunk`, and on error sets the fail bit leaving `d` untouched.
A stream that is already failed yields no characters (`StreamCharSequence::Get`
returns `'\0'` when `!in.good()`).  Returns the stream and the new value of
the target mantissa `d`. -/
def OpInStream (Prec : Nat) (p : Policy) (s : IStream) (d : Int) : IStream × Int :=
  let s1 := StreamWs s
  let r := Parse Prec p streamOpts (StreamInput s1)
  match r.error with
  | some _ => ({ s1 with failbit := true }, d)
  | none => (s1, r.value)

/-- Digit accumulation as the parser performs it: `before = 10*before + digit`
folded over a character list. -/
def accFold (b : Int) (ds : List Char) : Int :=
  ds.foldl (fun x c => 10 * x + digitVal c) b

/-! Theorems about the embedded operations. -/

/-- Value of a digit character produced by `digitChar`. -/
theorem digitVal_digitChar (m : Nat) (h : m < 10) : digitVal (digitChar m) = m := by
  interval_cases m <;> decide

/-- Digit characters produced by `digitChar` lie between `'0'` and `'9'`. -/
theorem digitChar_is_digit (m : Nat) (h : m < 10) :
    '0' ≤ digitChar m ∧ digitChar m ≤ '9' := by
  interval_cases m <;> decide

/-- The digit-rendering helper is fuel-insensitive once the fuel bounds the
number of digits. -/
theorem natDigitsAux_congr (n : Nat) (f1 f2 : Nat) (h1 : n < 10 ^ f1) (h2 : n < 10 ^ f2)
    (hf1 : 0 < f1) (hf2 : 0 < f2) : natDigitsAux f1 n = natDigitsAux f2 n := by
  induction n using Nat.strong_induction_on generalizing f1 f2 with
  | _ n ih =>
    match f1, f2 with
    | 0, _ => omega
    | _ + 1, 0 => omega
    | g1 + 1, g2 + 1 =>
      by_cases hn : n < 10
      · simp [natDigitsAux, hn]
      · have hd : n / 10 < n := Nat.div_lt_self (by omega) (by omega)
        have hb1 : n / 10 < 10 ^ g1 := by
          rw [Nat.div_lt_iff_lt_mul (by omega)]
          calc n < 10 ^ (g1 + 1) := h1
          _ = 10 ^ g1 * 10 := by ring
        have hb2 : n / 10 < 10 ^ g2 := by
          rw [Nat.div_lt_iff_lt_mul (by omega)]
          calc n < 10 ^ (g2 + 1) := h2
          _ = 10 ^ g2 * 10 := by ring
        have hg1 : 0 < g1 := by
          rcases Nat.eq_zero_or_pos g1 with h | h
          · subst h
            simp at h1
            omega
          · exact h
        have hg2 : 0 < g2 := by
          rcases Nat.eq_zero_or_pos g2 with h | h
          · subst h
            simp at h2
            omega
          · exact h
        rw [show natDigitsAux (g1 + 1) n =
              natDigitsAux g1 (n / 10) ++ [digitChar (n % 10)] from by
            rw [natDigitsAux, if_neg hn],
          show natDigitsAux (g2 + 1) n =
              natDigitsAux g2 (n / 10) ++ [digitChar (n % 10)] from by
            rw [natDigitsAux, if_neg hn]]
        rw [ih (n / 10) hd g1 g2 hb1 hb2 hg1 hg2]

/-- Every natural number is below `10^n`. -/
theorem lt_ten_pow_self (n : Nat) : n < 10 ^ n :=
  lt_of_lt_of_le (Nat.lt_two_pow n) (Nat.pow_le_pow_left (by omega) n)

/-- Unfolding equation for `natToDigits`. -/
theorem natToDigits_eq (n : Nat) :
    natToDigits n = if n < 10 then [digitChar n]
                    else natToDigits (n / 10) ++ [digitChar (n % 10)] := by
  by_cases hn : n < 10
  · simp [natToDigits, natDigitsAux, hn]
  · rw [if_neg hn]
    show natDigitsAux (n + 1) n = _
    rcases n with _ | m
    · omega
    · have hd : (m + 1) / 10 < m + 1 := Nat.div_lt_self (by omega) (by omega)
      rw [show natDigitsAux (m + 1 + 1) (m + 1) =
            natDigitsAux (m + 1) ((m + 1) / 10) ++ [digitChar ((m + 1) % 10)] from by
          rw [natDigitsAux, if_neg hn]]
      congr 1
      apply natDigitsAux_congr
      · exact hd.trans (lt_ten_pow_self (m + 1))
      · exact lt_of_lt_of_le (lt_ten_pow_self ((m + 1) / 10))
          (Nat.pow_le_pow_right (by omega) (by omega))
      · omega
      · omega


/-- Evaluation helper: the floor of a concrete rational. -/
theorem floor_nineteen_eighths : ⌊(19 / 8 : ℚ)⌋ = 2 := by
  rw [Int.floor_eq_iff]
  norm_num

/-- Digits of zero. -/
theorem natToDigits_zero : natToDigits 0 = ['0'] := rfl

/-- The parser's digit accumulation inverts the digit rendering. -/
theorem accFold_natToDigits (n : Nat) : accFold 0 (natToDigits n) = n := by
  induction n using Nat.strong_induction_on with
  | _ n ih =>
    rw [natToDigits_eq]
    by_cases hn : n < 10
    · rw [if_pos hn]
      simp [accFold, digitVal_digitChar n hn]
    · rw [if_neg hn]
      have hd : n / 10 < n := Nat.div_lt_self (by omega) (by omega)
      unfold accFold
      rw [List.foldl_append]
      have hih := ih (n / 10) hd
      unfold accFold at hih
      rw [hih]
      simp only [List.foldl_cons, List.foldl_nil, digitVal_digitChar (n % 10) (by omega)]
      push_cast
      omega

/-- Every character the digit rendering produces is a decimal digit. -/
theorem natToDigits_all_digits (n : Nat) : ∀ c ∈ natToDigits n, '0' ≤ c ∧ c ≤ '9' := by
  induction n using Nat.strong_induction_on with
  | _ n ih =>
    rw [natToDigits_eq]
    by_cases hn : n < 10
    · rw [if_pos hn]
      intro c hc
      rw [List.mem_singleton] at hc
      subst hc
      exact digitChar_is_digit n hn
    · rw [if_neg hn]
      intro c hc
      rw [List.mem_append] at hc
      rcases hc with hc | hc
      · exact ih (n / 10) (Nat.div_lt_self (by omega) (by omega)) c hc
      · rw [List.mem_singleton] at hc
        subst hc
        exact digitChar_is_digit (n % 10) (by omega)

/-- A number below `10^k` renders to at most `k` digits (for `k ≥ 1`). -/
theorem natToDigits_length_le (n k : Nat) (h : n < 10 ^ k) (hk : 0 < k) :
    (natToDigits n).length ≤ k := by
  induction n using Nat.strong_induction_on generalizing k with
  | _ n ih =>
    rw [natToDigits_eq]
    by_cases hn : n < 10
    · rw [if_pos hn]
      simpa using hk
    · rw [if_neg hn]
      have hd : n / 10 < n := Nat.div_lt_self (by omega) (by omega)
      match k, hk with
      | k + 1, _ =>
        have hb : n / 10 < 10 ^ k := by
          rw [Nat.div_lt_iff_lt_mul (by omega)]
          calc n < 10 ^ (k + 1) := h
          _ = 10 ^ k * 10 := by ring
        have hk0 : 0 < k := by
          rcases Nat.eq_zero_or_pos k with h0 | h0
          · subst h0
            simp at h
            omega
          · exact h0
        have := ih (n / 10) hd k hb hk0
        simp only [List.length_append, List.length_cons, List.length_nil]
        omega

/-- A positive number renders with a nonzero leading digit. -/
theorem natToDigits_head_pos (n : Nat) (h : 0 < n) :
    ∃ d ds, natToDigits n = d :: ds ∧ '1' ≤ d ∧ d ≤ '9' := by
  induction n using Nat.strong_induction_on with
  | _ n ih =>
    rw [natToDigits_eq]
    by_cases hn : n < 10
    · rw [if_pos hn]
      refine ⟨digitChar n, [], rfl, ?_, (digitChar_is_digit n hn).2⟩
      interval_cases n <;> simp_all <;> decide
    · rw [if_neg hn]
      have hd : n / 10 < n := Nat.div_lt_self (by omega) (by omega)
      obtain ⟨d, ds, heq, h1, h9⟩ := ih (n / 10) hd (by omega)
      exact ⟨d, ds ++ [digitChar (n % 10)], by rw [heq]; rfl, h1, h9⟩

/-- Accumulating over leading zero characters is the identity. -/
theorem accFold_replicate_zero (k : Nat) : accFold 0 (List.replicate k '0') = 0 := by
  induction k with
  | zero => rfl
  | succ m ih =>
    rw [List.replicate_succ]
    unfold accFold at ih ⊢
    simpa using ih

/-- The parser's digit accumulation inverts zero-padded rendering. -/
theorem accFold_padDigits (w m : Nat) : accFold 0 (padDigits w m) = m := by
  unfold padDigits accFold
  rw [List.foldl_append]
  have h0 := accFold_replicate_zero (w - (natToDigits m).length)
  unfold accFold at h0
  rw [h0]
  exact accFold_natToDigits m

/-- Zero-padded rendering has exactly the requested width. -/
theorem padDigits_length (w m : Nat) (h : m < 10 ^ w) (hw : 0 < w) :
    (padDigits w m).length = w := by
  have hle := natToDigits_length_le m w h hw
  simp only [padDigits, List.length_append, List.length_replicate]
  omega

/-- Every character of zero-padded rendering is a decimal digit. -/
theorem padDigits_all_digits (w m : Nat) : ∀ c ∈ padDigits w m, '0' ≤ c ∧ c ≤ '9' := by
  intro c hc
  rw [padDigits, List.mem_append] at hc
  rcases hc with hc | hc
  · rw [List.eq_of_mem_replicate hc]
    exact ⟨le_refl _, by decide⟩
  · exact natToDigits_all_digits m c hc

/-- A digit character is not the NUL terminator. -/
theorem digit_ne_nul {c : Char} (h : '0' ≤ c ∧ c ≤ '9') : ¬(c = '\x00') := by
  intro hc
  subst hc
  exact absurd h.1 (by decide)

/-- Running the main loop over a block of digit characters in state
`kBeforeDec` while the 18-digit budget lasts: the digits are accumulated into
`before` and counted. -/
theorem mainLoop_run_beforeDec (opts : POpts) (ds : List Char) (rest : List Char) (a : PAcc)
    (hds : ∀ c ∈ ds, '0' ≤ c ∧ c ≤ '9') (herr : a.err = none)
    (hcnt : a.beforeCnt + ds.length ≤ 18) :
    mainLoop opts .beforeDec a (ds ++ rest) =
      mainLoop opts .beforeDec
        { a with before := accFold a.before ds, pos := a.pos + ds.length,
                 beforeCnt := a.beforeCnt + ds.length } rest := by
  induction ds generalizing a with
  | nil =>
    simp [accFold]
  | cons c ds ih =>
    obtain ⟨b0, af0, ng0, p0, e0, bc0, ac0⟩ := a
    simp only [PAcc.err] at herr
    subst herr
    have hc := hds c (List.mem_cons_self c ds)
    have hcs : ∀ x ∈ ds, '0' ≤ x ∧ x ≤ '9' := fun x hx => hds x (List.mem_cons_of_mem c hx)
    simp only [PAcc.beforeCnt, List.length_cons] at hcnt
    simp only [List.cons_append, mainLoop, if_neg (digit_ne_nul hc)]
    simp only [if_true]
    simp only [stepChar, if_pos hc, PAcc.beforeCnt]
    rw [if_pos (show bc0 < 18 by omega)]
    show mainLoop opts PState.beforeDec
        { before := 10 * b0 + digitVal c, after := af0, isNeg := ng0, pos := p0 + 1,
          err := none, beforeCnt := bc0 + 1, afterCnt := ac0 } (ds ++ rest) = _
    rw [ih _ hcs rfl (by simp only [PAcc.beforeCnt]; omega)]
    have h1 : accFold b0 (c :: ds) = accFold (10 * b0 + digitVal c) ds := by
      rw [accFold, List.foldl_cons]
      rfl
    have h2 : p0 + 1 + (ds.length : Int) = p0 + ((c :: ds).length : Int) := by
      simp only [List.length_cons]
      push_cast
      ring
    have h3 : bc0 + 1 + ds.length = bc0 + (c :: ds).length := by
      simp only [List.length_cons]
      omega
    congr 1
    rw [h1, h2, h3]

/-- A decimal digit character is none of the parser's special characters. -/
theorem digit_char_facts {c : Char} (h : '0' ≤ c ∧ c ≤ '9') :
    c ≠ '-' ∧ c ≠ '+' ∧ c ≠ '.' ∧ IsSpaceChar c = false := by
  obtain ⟨h0, h9⟩ := h
  refine ⟨?_, ?_, ?_, ?_⟩
  · intro hc
    subst hc
    exact absurd h0 (by decide)
  · intro hc
    subst hc
    exact absurd h0 (by decide)
  · intro hc
    subst hc
    exact absurd h0 (by decide)
  · simp only [IsSpaceChar, Bool.or_eq_false_iff, decide_eq_false_iff_not]
    refine ⟨⟨⟨⟨?_, ?_⟩, ?_⟩, ?_⟩, ?_⟩ <;>
      · intro hc
        subst hc
        revert h0 h9
        decide

/-- A digit other than `'0'` is at least `'1'`. -/
theorem digit_ge_one {c : Char} (h : '0' ≤ c ∧ c ≤ '9') (h0 : ¬(c = '0')) :
    '1' ≤ c ∧ c ≤ '9' := by
  refine ⟨?_, h.2⟩
  have h1 : 48 ≤ c.toNat := h.1
  have h2 : c.toNat ≠ 48 := by
    intro ht
    apply h0
    have hv : c.toNat = ('0').toNat := by
      rw [ht]
      rfl
    exact Char.eq_of_val_eq (UInt32.eq_of_toBitVec_eq (BitVec.eq_of_toNat_eq hv))
  show 49 ≤ c.toNat
  omega

/-- On a digit character, the `kSign` and `kBeforeFirstDig` states act
identically. -/
theorem stepChar_sign_beforeFirstDig (opts : POpts) (a : PAcc) {c : Char}
    (h : '0' ≤ c ∧ c ≤ '9') :
    stepChar opts .signS a c = stepChar opts .beforeFirstDig a c := by
  obtain ⟨hm, hp, hd, hs⟩ := digit_char_facts h
  by_cases h0 : c = '0'
  · subst h0
    rfl
  · have h19 := digit_ge_one h h0
    simp only [stepChar, if_neg hm, if_neg hp, if_neg h0]
    rw [if_pos h19, if_pos h19]

/-- Running the main loop over digits in state `kAfterDec` while the 18-digit
budget lasts: digits are accumulated into `after` and counted. -/
theorem mainLoop_run_afterDec (opts : POpts) (ds : List Char) (rest : List Char) (a : PAcc)
    (hds : ∀ c ∈ ds, '0' ≤ c ∧ c ≤ '9') (herr : a.err = none)
    (hcnt : a.afterCnt + ds.length ≤ 18) :
    mainLoop opts .afterDec a (ds ++ rest) =
      mainLoop opts .afterDec
        { a with after := accFold a.after ds, pos := a.pos + ds.length,
                 afterCnt := a.afterCnt + ds.length } rest := by
  induction ds generalizing a with
  | nil =>
    simp [accFold]
  | cons c ds ih =>
    obtain ⟨b0, af0, ng0, p0, e0, bc0, ac0⟩ := a
    simp only [PAcc.err] at herr
    subst herr
    have hc := hds c (List.mem_cons_self c ds)
    have hcs : ∀ x ∈ ds, '0' ≤ x ∧ x ≤ '9' := fun x hx => hds x (List.mem_cons_of_mem c hx)
    simp only [PAcc.afterCnt, List.length_cons] at hcnt
    simp only [List.cons_append, mainLoop, if_neg (digit_ne_nul hc)]
    simp only [if_true]
    simp only [stepChar, if_pos hc, PAcc.afterCnt]
    rw [if_pos (show ac0 < 18 by omega)]
    show mainLoop opts PState.afterDec
        { before := b0, after := 10 * af0 + digitVal c, isNeg := ng0, pos := p0 + 1,
          err := none, beforeCnt := bc0, afterCnt := ac0 + 1 } (ds ++ rest) = _
    rw [ih _ hcs rfl (by simp only [PAcc.afterCnt]; omega)]
    have h1 : accFold af0 (c :: ds) = accFold (10 * af0 + digitVal c) ds := by
      rw [accFold, List.foldl_cons]
      rfl
    have h2 : p0 + 1 + (ds.length : Int) = p0 + ((c :: ds).length : Int) := by
      simp only [List.length_cons]
      push_cast
      ring
    have h3 : ac0 + 1 + ds.length = ac0 + (c :: ds).length := by
      simp only [List.length_cons]
      omega
    congr 1
    rw [h1, h2, h3]

/-- Once the integer-part budget is exhausted and an error is recorded, the
main loop skips further digits in `kBeforeDec` without changing anything. -/
theorem mainLoop_run_beforeDec_err (opts : POpts) (ds : List Char) (rest : List Char) (a : PAcc)
    (hds : ∀ c ∈ ds, '0' ≤ c ∧ c ≤ '9') (herr : a.err ≠ none)
    (hcnt : ¬(a.beforeCnt < 18)) :
    mainLoop opts .beforeDec a (ds ++ rest) = mainLoop opts .beforeDec a rest := by
  induction ds with
  | nil => rfl
  | cons c ds ih =>
    have hc := hds c (List.mem_cons_self c ds)
    have hcs : ∀ x ∈ ds, '0' ≤ x ∧ x ≤ '9' := fun x hx => hds x (List.mem_cons_of_mem c hx)
    simp only [List.cons_append, mainLoop, if_neg (digit_ne_nul hc)]
    rw [if_neg herr]
    simp only [stepChar, if_pos hc]
    rw [if_neg hcnt, if_neg herr]
    exact ih hcs

/-- The nineteenth significant digit of the integer part records `kOverflow`
and parsing continues. -/
theorem mainLoop_beforeDec_overflow_step (opts : POpts) (rest : List Char) (a : PAcc) {c : Char}
    (hc : '0' ≤ c ∧ c ≤ '9') (herr : a.err = none) (hcnt : ¬(a.beforeCnt < 18)) :
    mainLoop opts .beforeDec a (c :: rest) =
      mainLoop opts .beforeDec { a with pos := a.pos + 1, err := some .overflow } rest := by
  simp only [mainLoop, if_neg (digit_ne_nul hc)]
  rw [if_pos herr]
  simp only [stepChar, if_pos hc]
  rw [if_neg hcnt, if_pos (show ({ a with pos := a.pos + 1 } : PAcc).err = none from herr)]

/-- Main-loop trajectory on a rendered number `natToDigits bef`, optionally
followed by `'.'` and a `w`-digit zero-padded fraction: starting from `kSign`
or `kBeforeFirstDig` with clean accumulators, the loop consumes everything,
records `before = bef`, `after = aft`, `decimal digits = w`, and no error. -/
theorem mainLoop_numeral_frac (opts : POpts) (st : PState)
    (hst : st = PState.signS ∨ st = PState.beforeFirstDig)
    (ng0 : Bool) (p0 : Int) (bef aft w : Nat)
    (hbef : bef < 10 ^ 18) (haft : aft < 10 ^ w) (hw : w ≤ 18) (haw : w = 0 → aft = 0) :
    ∃ bc pos stf,
      mainLoop opts st ⟨0, 0, ng0, p0, none, 0, 0⟩
          (natToDigits bef ++ (if 0 < w then '.' :: padDigits w aft else [])) =
        (⟨(bef : Int), (aft : Int), ng0, pos, none, bc, w⟩, stf, none) ∧
      1 ≤ bc ∧ bc ≤ 18 ∧ (0 < w → stf = PState.afterDec) ∧
      (w = 0 → stf ≠ PState.afterDec) := by
  -- the fraction tail, from `kAfterDec` with clean fraction accumulators
  have tail : ∀ (b1 : Int) (p1 : Int) (bc1 : Nat), 0 < w →
      mainLoop opts .afterDec ⟨b1, 0, ng0, p1, none, bc1, 0⟩ (padDigits w aft) =
        (⟨b1, (aft : Int), ng0, p1 + w, none, bc1, w⟩, .afterDec, none) := by
    intro b1 p1 bc1 hw0
    rw [← List.append_nil (padDigits w aft)]
    rw [mainLoop_run_afterDec opts _ _ _ (padDigits_all_digits w aft) rfl
      (by simp only [PAcc.afterCnt]; rw [padDigits_length w aft haft hw0]; omega)]
    simp only [mainLoop, PAcc.after, PAcc.pos, PAcc.afterCnt]
    rw [accFold_padDigits, padDigits_length w aft haft hw0]
    norm_num
  by_cases hbef0 : bef = 0
  · -- integer part `0`: one `'0'` through `kLeadingZeros`
    subst hbef0
    rw [natToDigits_zero]
    have step0 : mainLoop opts st ⟨0, 0, ng0, p0, none, 0, 0⟩
        ('0' :: (if 0 < w then '.' :: padDigits w aft else [])) =
        mainLoop opts .leadingZeros ⟨0, 0, ng0, p0 + 1, none, 1, 0⟩
          (if 0 < w then '.' :: padDigits w aft else []) := by
      rcases hst with h | h <;>
        · subst h
          simp [mainLoop, stepChar]
    rw [show ('0' :: []) ++ (if 0 < w then '.' :: padDigits w aft else []) =
        '0' :: (if 0 < w then '.' :: padDigits w aft else []) from rfl, step0]
    rcases Nat.eq_zero_or_pos w with hw0 | hw0
    · subst hw0
      rw [if_neg (by omega)]
      refine ⟨1, p0 + 1, .leadingZeros, ?_, by omega, by omega, by omega, fun _ => by decide⟩
      rw [haw rfl]
      simp [mainLoop]
    · rw [if_pos hw0]
      have stepDot : mainLoop opts .leadingZeros ⟨0, 0, ng0, p0 + 1, none, 1, 0⟩
          ('.' :: padDigits w aft) =
          mainLoop opts .afterDec ⟨0, 0, ng0, p0 + 1 + 1, none, 1, 0⟩ (padDigits w aft) := by
        simp [mainLoop, stepChar]
      rw [stepDot, tail 0 (p0 + 1 + 1) 1 hw0]
      exact ⟨1, p0 + 1 + 1 + w, .afterDec, rfl, by omega, by omega, fun _ => rfl, by omega⟩
  · -- positive integer part: nonzero leading digit, then a digit run
    obtain ⟨d, ds, hsplit, hd1, hd9⟩ := natToDigits_head_pos bef (by omega)
    have hdd : '0' ≤ d ∧ d ≤ '9' := ⟨le_trans (by decide) hd1, hd9⟩
    have hall := natToDigits_all_digits bef
    rw [hsplit] at hall
    have hds : ∀ x ∈ ds, '0' ≤ x ∧ x ≤ '9' := fun x hx => hall x (List.mem_cons_of_mem d hx)
    have hlen : (natToDigits bef).length ≤ 18 := natToDigits_length_le bef 18 hbef (by omega)
    rw [hsplit] at hlen
    simp only [List.length_cons] at hlen
    have hacc : accFold (digitVal d) ds = (bef : Int) := by
      have := accFold_natToDigits bef
      rw [hsplit] at this
      rw [accFold, List.foldl_cons] at this
      rw [accFold]
      calc List.foldl (fun x c => 10 * x + digitVal c) (digitVal d) ds
          = List.foldl (fun x c => 10 * x + digitVal c) (10 * 0 + digitVal d) ds := by
            norm_num
        _ = (bef : Int) := this
    rw [hsplit]
    have hd0 : ¬(d = '0') := by
      intro h
      subst h
      exact absurd hd1 (by decide)
    have step1 : mainLoop opts st ⟨0, 0, ng0, p0, none, 0, 0⟩
        (d :: (ds ++ (if 0 < w then '.' :: padDigits w aft else []))) =
        mainLoop opts .beforeDec ⟨digitVal d, 0, ng0, p0 + 1, none, 1, 0⟩
          (ds ++ (if 0 < w then '.' :: padDigits w aft else [])) := by
      have h19 := digit_ge_one hdd hd0
      obtain ⟨hm, hp, hdot, hsp⟩ := digit_char_facts hdd
      have hstep : stepChar opts .signS ⟨0, 0, ng0, p0 + 1, none, 0, 0⟩ d =
          .cont .beforeDec ⟨digitVal d, 0, ng0, p0 + 1, none, 1, 0⟩ := by
        simp only [stepChar, if_neg hm, if_neg hp, if_neg hd0]
        rw [if_pos h19]
      have hstep2 : stepChar opts st ⟨0, 0, ng0, p0 + 1, none, 0, 0⟩ d =
          .cont .beforeDec ⟨digitVal d, 0, ng0, p0 + 1, none, 1, 0⟩ := by
        rcases hst with h | h
        · rw [h, hstep]
        · rw [h, ← stepChar_sign_beforeFirstDig opts _ hdd, hstep]
      simp only [mainLoop, if_neg (digit_ne_nul hdd), if_true]
      rw [hstep2]
    rw [show (d :: ds) ++ (if 0 < w then '.' :: padDigits w aft else []) =
        d :: (ds ++ (if 0 < w then '.' :: padDigits w aft else [])) from rfl, step1]
    rw [mainLoop_run_beforeDec opts ds _ _ hds rfl (by simp only [PAcc.beforeCnt]; omega)]
    simp only [PAcc.before, PAcc.pos, PAcc.beforeCnt]
    rw [hacc]
    rcases Nat.eq_zero_or_pos w with hw0 | hw0
    · subst hw0
      rw [if_neg (by omega)]
      refine ⟨1 + ds.length, p0 + 1 + ds.length, .beforeDec, ?_, by omega, by omega,
        by omega, fun _ => by decide⟩
      rw [haw rfl]
      simp [mainLoop]
    · rw [if_pos hw0]
      have stepDot : mainLoop opts .beforeDec
          ⟨(bef : Int), 0, ng0, p0 + 1 + ds.length, none, 1 + ds.length, 0⟩
          ('.' :: padDigits w aft) =
          mainLoop opts .afterDec
            ⟨(bef : Int), 0, ng0, p0 + 1 + ds.length + 1, none, 1 + ds.length, 0⟩
            (padDigits w aft) := by
        simp [mainLoop, stepChar]
      rw [stepDot, tail _ _ _ hw0]
      exact ⟨1 + ds.length, p0 + 1 + ds.length + 1 + w, .afterDec, rfl, by omega, by omega,
        fun _ => rfl, by omega⟩

/-- A number at least `10^k` renders to more than `k` digits. -/
theorem natToDigits_length_gt (n : Nat) (k : Nat) (h : 10 ^ k ≤ n) :
    k < (natToDigits n).length := by
  induction n using Nat.strong_induction_on generalizing k with
  | _ n ih =>
    rw [natToDigits_eq]
    by_cases hn : n < 10
    · rw [if_pos hn]
      have hk : k = 0 := by
        by_contra hk0
        have : 10 ≤ 10 ^ k := by
          calc (10 : Nat) = 10 ^ 1 := by norm_num
          _ ≤ 10 ^ k := Nat.pow_le_pow_right (by omega) (by omega)
        omega
      subst hk
      simp
    · rw [if_neg hn]
      simp only [List.length_append, List.length_cons, List.length_nil]
      rcases Nat.eq_zero_or_pos k with hk | hk
      · omega
      · have hdk : 10 ^ (k - 1) ≤ n / 10 := by
          rw [Nat.le_div_iff_mul_le (by omega)]
          calc 10 ^ (k - 1) * 10 = 10 ^ (k - 1 + 1) := by ring
          _ = 10 ^ k := by
            congr 1
            omega
          _ ≤ n := h
        have := ih (n / 10) (Nat.div_lt_self (by omega) (by omega)) (k - 1) hdk
        omega

/-- Result of `impl::ParseUnpacked` on a formatted number: an optional minus
sign, the digits of `bef`, and optionally a dot followed by a `w`-digit
zero-padded fraction.  The parse succeeds with exactly the rendered
components, under every option set. -/
theorem parseUnpacked_formatted (opts : POpts) (neg : Bool) (bef aft w : Nat)
    (hbef : bef < 10 ^ 18) (haft : aft < 10 ^ w) (hw : w ≤ 18) (haw : w = 0 → aft = 0) :
    ∃ pos,
      ParseUnpacked opts ((if neg then ['-'] else []) ++ natToDigits bef ++
          (if 0 < w then '.' :: padDigits w aft else [])) =
        ⟨(bef : Int), (aft : Int), w, neg, none, pos⟩ := by
  have main : ∃ st p0, (st = PState.signS ∨ st = PState.beforeFirstDig) ∧
      mainLoop opts .signS {}
          ((if neg then ['-'] else []) ++ natToDigits bef ++
            (if 0 < w then '.' :: padDigits w aft else [])) =
        mainLoop opts st ⟨0, 0, neg, p0, none, 0, 0⟩
          (natToDigits bef ++ (if 0 < w then '.' :: padDigits w aft else [])) := by
    cases neg with
    | false =>
      exact ⟨.signS, -1, Or.inl rfl, rfl⟩
    | true =>
      refine ⟨.beforeFirstDig, 0, Or.inr rfl, ?_⟩
      simp [mainLoop, stepChar]
  obtain ⟨st, p0, hst, hmain⟩ := main
  obtain ⟨bc, pos, stf, hrun, hbc1, hbc18, hwpos, hwzero⟩ :=
    mainLoop_numeral_frac opts st hst neg p0 bef aft w hbef haft hw haw
  refine ⟨pos, ?_⟩
  have hnd : ¬((none : Option PErr) = none ∧ bc = 0 ∧ w = 0) := by
    intro h
    omega
  have hbd : ¬((none : Option PErr) = none ∧ stf = PState.afterDec ∧
      opts.allowBoundaryDot = false ∧ w = 0) := by
    rintro ⟨-, hstf, -, hw0⟩
    exact hwzero hw0 hstf
  unfold ParseUnpacked
  rw [hmain, hrun]
  dsimp only
  rw [if_neg hnd, if_neg hbd]

/-- On a numeral with 19 or more significant digits, the unpacking parser
reports `kOverflow` (and keeps scanning to the end). -/
theorem parseUnpacked_long_numeral (opts : POpts) (n : Nat) (hn : 10 ^ 18 ≤ n) :
    (ParseUnpacked opts (natToDigits n)).error = some .overflow := by
  obtain ⟨d, ds, hsplit, hd1, hd9⟩ := natToDigits_head_pos n (by positivity)
  have hdd : '0' ≤ d ∧ d ≤ '9' := ⟨le_trans (by decide) hd1, hd9⟩
  have hall := natToDigits_all_digits n
  rw [hsplit] at hall
  have hds : ∀ x ∈ ds, '0' ≤ x ∧ x ≤ '9' := fun x hx => hall x (List.mem_cons_of_mem d hx)
  have hlen : 18 < (natToDigits n).length := natToDigits_length_gt n 18 hn
  rw [hsplit] at hlen
  simp only [List.length_cons] at hlen
  have hd0 : ¬(d = '0') := by
    intro h
    subst h
    exact absurd hd1 (by decide)
  have hdslen : 18 ≤ ds.length := by omega
  -- split the remaining digits: seventeen fit, the next one overflows
  have htd : ds = ds.take 17 ++ ds.drop 17 := (List.take_append_drop 17 ds).symm
  have htlen : (ds.take 17).length = 17 := by
    rw [List.length_take]
    omega
  have hdrlen : 1 ≤ (ds.drop 17).length := by
    rw [List.length_drop]
    omega
  rcases hdr : ds.drop 17 with _ | ⟨c2, rest2⟩
  · rw [hdr] at hdrlen
    simp at hdrlen
  · have htake : ∀ x ∈ ds.take 17, '0' ≤ x ∧ x ≤ '9' :=
      fun x hx => hds x (List.take_subset 17 ds hx)
    have hc2 : '0' ≤ c2 ∧ c2 ≤ '9' := by
      apply hds
      apply List.drop_subset 17
      rw [hdr]
      exact List.mem_cons_self c2 rest2
    have hrest2 : ∀ x ∈ rest2, '0' ≤ x ∧ x ≤ '9' := by
      intro x hx
      apply hds
      apply List.drop_subset 17
      rw [hdr]
      exact List.mem_cons_of_mem c2 hx
    set l1 := List.take 17 ds with hl1
    have hds2 : ds = l1 ++ c2 :: rest2 := by
      rw [htd, hdr]
    have step1 : mainLoop opts .signS {} (natToDigits n) =
        mainLoop opts .beforeDec ⟨digitVal d, 0, false, 0, none, 1, 0⟩
          (l1 ++ (c2 :: rest2)) := by
      rw [hsplit, hds2]
      have h19 := digit_ge_one hdd hd0
      obtain ⟨hm, hp, hdot, hsp⟩ := digit_char_facts hdd
      simp only [mainLoop, if_neg (digit_ne_nul hdd), if_true]
      rw [show stepChar opts .signS
            ⟨0, 0, false, (-1 : Int) + 1, none, 0, 0⟩ d =
          .cont .beforeDec ⟨digitVal d, 0, false, -1 + 1, none, 1, 0⟩ from by
        simp only [stepChar, if_neg hm, if_neg hp, if_neg hd0]
        rw [if_pos h19]]
      dsimp only
      norm_num
    unfold ParseUnpacked
    rw [step1]
    rw [mainLoop_run_beforeDec opts _ _ _ htake rfl
      (by simp [htlen])]
    simp only [PAcc.before, PAcc.pos, PAcc.beforeCnt, PAcc.afterCnt, PAcc.after, PAcc.isNeg,
      PAcc.err, htlen]
    rw [mainLoop_beforeDec_overflow_step opts _ _ hc2 rfl (by simp only [PAcc.beforeCnt]; omega)]
    rw [show (rest2 : List Char) = rest2 ++ [] from (List.append_nil rest2).symm]
    rw [mainLoop_run_beforeDec_err opts _ _ _ hrest2 (by simp) (by simp only [PAcc.beforeCnt]; omega)]
    dsimp only [mainLoop]
    rw [if_neg (by simp), if_neg (by simp)]

/-- On a numeral of at most 18 digits, the unpacking parser succeeds and
returns its value. -/
theorem parseUnpacked_numeral (opts : POpts) (n : Nat) (hn : n < 10 ^ 18) :
    ∃ pos, ParseUnpacked opts (natToDigits n) = ⟨(n : Int), 0, 0, false, none, pos⟩ := by
  have h := parseUnpacked_formatted opts false n 0 0 hn (by norm_num) (by norm_num)
    (fun _ => rfl)
  simpa using h

/-- The decimal-level parser reports `Overflow` exactly when the unpacking
stage did, or when unpacking succeeded with an integer part at least
`kMaxInt64 / 10^Prec`. -/
theorem parse_overflow_iff (Prec : Nat) (p : Policy) (opts : POpts) (l : List Char) :
    (Parse Prec p opts l).error = some .overflow ↔
      ((ParseUnpacked opts l).error = some .overflow ∨
        ((ParseUnpacked opts l).error = none ∧
          kMaxInt64.tdiv (Pow10 Prec) ≤ (ParseUnpacked opts l).before)) := by
  unfold Parse
  rcases hu : ParseUnpacked opts l with ⟨ub, ua, ud, un, ue, up⟩
  dsimp only
  rcases ue with _ | e
  · by_cases hth : kMaxInt64.tdiv (Pow10 Prec) ≤ ub
    · rw [if_pos hth]
      simp [hth]
    · rw [if_neg hth]
      by_cases hrd : opts.allowRounding = false ∧ Prec < ud
      · rw [if_pos hrd]
        simp [hth]
      · rw [if_neg hrd]
        simp [hth]
  · simp

/-- C6: the parser's `Overflow` cases.  (1) A numeral with 19 or more digits
(a value at least `10^18`) parses to `Overflow` at every precision and
policy; (2) numerals up to 18 digits are accepted by the unpacking stage with
their exact value; (3) the decimal-level parse reports `Overflow` exactly
when either the unpacking stage reported it, or unpacking succeeded and the
nonnegative integer part `before` satisfies `before ≥ max_i64 / 10^Prec`. -/
theorem parse_overflow_cases :
    (∀ (Prec : Nat) (p : Policy) (n : Nat), 10 ^ 18 ≤ n →
        (Parse Prec p strictOpts (natToDigits n)).error = some .overflow) ∧
    (∀ (n : Nat), n < 10 ^ 18 →
        (ParseUnpacked strictOpts (natToDigits n)).error = none ∧
        (ParseUnpacked strictOpts (natToDigits n)).before = n) ∧
    (∀ (Prec : Nat) (p : Policy) (opts : POpts) (l : List Char),
        (Parse Prec p opts l).error = some .overflow ↔
          ((ParseUnpacked opts l).error = some .overflow ∨
            ((ParseUnpacked opts l).error = none ∧
              kMaxInt64.tdiv (Pow10 Prec) ≤ (ParseUnpacked opts l).before))) := by
  refine ⟨?_, ?_, parse_overflow_iff⟩
  · intro Prec p n hn
    rw [parse_overflow_iff]
    exact Or.inl (parseUnpacked_long_numeral strictOpts n hn)
  · intro n hn
    obtain ⟨pos, hp⟩ := parseUnpacked_numeral strictOpts n hn
    rw [hp]
    exact ⟨rfl, rfl⟩

/-- C6 (witness): the 19-digit numeral `10^18` overflows at `Prec = 4`, and
the one-digit numeral `7` is accepted. -/
theorem parse_overflow_cases_witness :
    (Parse 4 .defP strictOpts (natToDigits (10 ^ 18))).error = some .overflow ∧
    (ParseUnpacked strictOpts (natToDigits 7)).error = none :=
  ⟨parse_overflow_cases.1 4 .defP (10 ^ 18) (le_refl _),
    (parse_overflow_cases.2.1 7 (by norm_num)).1⟩

/-- C truncating remainder commutes with negation of the dividend. -/
theorem neg_tmod (a b : Int) : (-a).tmod b = -(a.tmod b) := by
  have h1 := Int.tdiv_add_tmod a b
  have h2 := Int.tdiv_add_tmod (-a) b
  rw [Int.neg_tdiv, mul_neg] at h2
  linarith

/-- One `trimStep` preserves the value `x.1 * 10^x.2` and nonzeroness. -/
theorem trimStep_spec (k : Nat) (x : Int × Nat) :
    (trimStep k x).1 * Pow10 (trimStep k x).2 = x.1 * Pow10 x.2 ∧
    (x.1 ≠ 0 → (trimStep k x).1 ≠ 0) := by
  unfold trimStep
  split
  case isTrue h =>
    have hdvd : Pow10 k ∣ x.1 := Int.dvd_of_tmod_eq_zero h
    constructor
    · show x.1.tdiv (Pow10 k) * Pow10 (x.2 + k) = _
      rw [show Pow10 (x.2 + k) = Pow10 k * Pow10 x.2 from by
        unfold Pow10
        rw [← pow_add]
        congr 1
        omega]
      rw [← mul_assoc, Int.tdiv_mul_cancel hdvd]
    · intro hne h0
      apply hne
      have hc := Int.tdiv_mul_cancel hdvd
      dsimp only at h0
      rw [h0, zero_mul] at hc
      exact hc.symm
  case isFalse h => exact ⟨rfl, fun hne => hne⟩

/-- `impl::TrimTrailingZeros` only divides exact factors of ten out of
`after`: the pair `(trimmed, n)` it returns satisfies
`trimmed * 10^n = after`, and `trimmed` is nonzero when `after` is. -/
theorem trim_spec (Prec : Nat) (aft : Int) :
    (TrimTrailingZeros Prec aft).1 * Pow10 (TrimTrailingZeros Prec aft).2 = aft ∧
    (aft ≠ 0 → (TrimTrailingZeros Prec aft).1 ≠ 0) := by
  unfold TrimTrailingZeros
  split
  · simp [Pow10]
  · split
    case isTrue h =>
      subst h
      simp
    case isFalse h =>
      dsimp only
      have condInv : ∀ (c : Prop) (inst : Decidable c) (k : Nat) (x : Int × Nat),
          (x.1 * Pow10 x.2 = aft ∧ (aft ≠ 0 → x.1 ≠ 0)) →
          ((if c then trimStep k x else x).1 * Pow10 (if c then trimStep k x else x).2 = aft ∧
            (aft ≠ 0 → (if c then trimStep k x else x).1 ≠ 0)) := by
        intro c inst k x hx
        split
        · obtain ⟨h1, h2⟩ := trimStep_spec k x
          exact ⟨by rw [h1]; exact hx.1, fun ha => h2 (hx.2 ha)⟩
        · exact hx
      have base : ((aft, 0) : Int × Nat).1 * Pow10 ((aft, 0) : Int × Nat).2 = aft ∧
          (aft ≠ 0 → ((aft, 0) : Int × Nat).1 ≠ 0) := by
        simp [Pow10]
      have hx4 := condInv (3 ≤ Prec) inferInstance 2 _
        (condInv (5 ≤ Prec) inferInstance 4 _
          (condInv (9 ≤ Prec) inferInstance 8 _
            (condInv (17 ≤ Prec) inferInstance 16 _ base)))
      obtain ⟨h1, h2⟩ := trimStep_spec 1 (if 3 ≤ Prec then trimStep 2
        (if 5 ≤ Prec then trimStep 4 (if 9 ≤ Prec then trimStep 8
          (if 17 ≤ Prec then trimStep 16 (aft, 0) else (aft, 0)) else
            (if 17 ≤ Prec then trimStep 16 (aft, 0) else (aft, 0))) else
          (if 9 ≤ Prec then trimStep 8 (if 17 ≤ Prec then trimStep 16 (aft, 0) else (aft, 0))
            else (if 17 ≤ Prec then trimStep 16 (aft, 0) else (aft, 0)))) else
        (if 5 ≤ Prec then trimStep 4 (if 9 ≤ Prec then trimStep 8
          (if 17 ≤ Prec then trimStep 16 (aft, 0) else (aft, 0)) else
            (if 17 ≤ Prec then trimStep 16 (aft, 0) else (aft, 0))) else
          (if 9 ≤ Prec then trimStep 8 (if 17 ≤ Prec then trimStep 16 (aft, 0) else (aft, 0))
            else (if 17 ≤ Prec then trimStep 16 (aft, 0) else (aft, 0)))))
      exact ⟨by rw [h1]; exact hx4.1, fun ha => h2 (hx4.2 ha)⟩

/-- C truncating remainder lies strictly between `-b` and `b`. -/
theorem tmod_bounds (a b : Int) (hb : 0 < b) : -b < a.tmod b ∧ a.tmod b < b := by
  refine ⟨?_, Int.tmod_lt_of_pos a hb⟩
  rcases le_or_lt 0 a with ha | ha
  · have := Int.tmod_nonneg b ha
    omega
  · have := Int.tmod_lt_of_pos (-a) hb
    rw [neg_tmod] at this
    omega

/-- Positivity of the power table. -/
theorem pow10_pos (k : Nat) : (0 : Int) < Pow10 k := by
  unfold Pow10
  positivity

/-- Monotonicity of the power table. -/
theorem pow10_mono {a b : Nat} (h : a ≤ b) : Pow10 a ≤ Pow10 b := by
  unfold Pow10
  exact pow_le_pow_right₀ (by norm_num) h

/-- Core of the formatter analysis: once the fraction `aftv` and the trimmed
zero count `t` are fixed (with `aftv * 10^t` recovering `v`'s fractional
part), the emitted characters have the sign-digits-dot-padding shape with
components that reconstruct `v`. -/
theorem formatDec_shape_core (Prec : Nat) (v : Int) (aftv : Int) (t : Nat)
    (hmul : aftv * Pow10 t = v.tmod (Pow10 Prec))
    (hnz : v.tmod (Pow10 Prec) ≠ 0 → aftv ≠ 0) :
    ∃ (neg : Bool) (befN aftN w : Nat),
      (if 0 < Prec - t then
        (if Sign v = -1 then
          '-' :: (natToDigits (-(v.tdiv (Pow10 Prec))).toNat ++
            '.' :: padDigits (Prec - t) (-aftv).toNat)
        else natToDigits (v.tdiv (Pow10 Prec)).toNat ++
          '.' :: padDigits (Prec - t) aftv.toNat)
      else intToDigits (v.tdiv (Pow10 Prec))) =
        (if neg then ['-'] else []) ++ natToDigits befN ++
          (if 0 < w then '.' :: padDigits w aftN else []) ∧
      w ≤ Prec ∧ (w = 0 → aftN = 0) ∧ ((aftN : Int) < Pow10 w) ∧
      ((befN : Int) = (iabs v).tdiv (Pow10 Prec)) ∧
      ((if neg = true then
          -((befN : Int) * Pow10 Prec + (aftN : Int) * Pow10 (Prec - w))
        else (befN : Int) * Pow10 Prec + (aftN : Int) * Pow10 (Prec - w)) = v) := by
  have hF : (0 : Int) < Pow10 Prec := pow10_pos Prec
  have hFt : (0 : Int) < Pow10 t := pow10_pos t
  have hdec := Int.tdiv_add_tmod v (Pow10 Prec)
  by_cases hw : 0 < Prec - t
  · rw [if_pos hw]
    have hPw : Pow10 Prec = Pow10 (Prec - t) * Pow10 t := by
      unfold Pow10
      rw [← pow_add]
      congr 1
      omega
    rcases le_or_lt 0 v with hv | hv
    · have hs : ¬(Sign v = -1) := by
        unfold Sign
        split_ifs <;> first | decide | omega
      rw [if_neg hs]
      have hbnn : 0 ≤ v.tdiv (Pow10 Prec) := Int.tdiv_nonneg hv hF.le
      have hann : 0 ≤ v.tmod (Pow10 Prec) := Int.tmod_nonneg _ hv
      have hanv : 0 ≤ aftv := by
        by_contra hneg
        push_neg at hneg
        have hlt : aftv * Pow10 t < 0 := mul_neg_of_neg_of_pos hneg hFt
        rw [hmul] at hlt
        omega
      have haft : (aftv.toNat : Int) < Pow10 (Prec - t) := by
        rw [Int.toNat_of_nonneg hanv]
        by_contra hge
        push_neg at hge
        have h2 : Pow10 (Prec - t) * Pow10 t ≤ aftv * Pow10 t :=
          mul_le_mul_of_nonneg_right hge hFt.le
        rw [hmul, ← hPw] at h2
        have h3 := Int.tmod_lt_of_pos v hF
        omega
      refine ⟨false, (v.tdiv (Pow10 Prec)).toNat, aftv.toNat, Prec - t, ?_, by omega,
        by omega, haft, ?_, ?_⟩
      · simp [hw]
      · rw [Int.toNat_of_nonneg hbnn]
        unfold iabs
        rw [if_pos hv]
      · simp only [Bool.false_eq_true, if_false]
        rw [Int.toNat_of_nonneg hbnn, Int.toNat_of_nonneg hanv,
          show Prec - (Prec - t) = t from by omega, hmul]
        linarith [hdec]
    · have hs : Sign v = -1 := by
        unfold Sign
        split_ifs <;> first | decide | omega
      rw [if_pos hs]
      have hbnn : 0 ≤ -(v.tdiv (Pow10 Prec)) := by
        rw [← Int.neg_tdiv]
        exact Int.tdiv_nonneg (by omega) hF.le
      have hann : v.tmod (Pow10 Prec) ≤ 0 := by
        have h := Int.tmod_nonneg (Pow10 Prec) (show (0 : Int) ≤ -v by omega)
        rw [neg_tmod] at h
        omega
      have hanv : aftv ≤ 0 := by
        by_contra hpos
        push_neg at hpos
        have hlt : 0 < aftv * Pow10 t := mul_pos hpos hFt
        rw [hmul] at hlt
        omega
      have haft : ((-aftv).toNat : Int) < Pow10 (Prec - t) := by
        rw [Int.toNat_of_nonneg (by omega)]
        by_contra hge
        push_neg at hge
        have h2 : Pow10 (Prec - t) * Pow10 t ≤ -aftv * Pow10 t :=
          mul_le_mul_of_nonneg_right hge hFt.le
        rw [neg_mul, hmul, ← hPw] at h2
        have h3 := (tmod_bounds v (Pow10 Prec) hF).1
        omega
      refine ⟨true, (-(v.tdiv (Pow10 Prec))).toNat, (-aftv).toNat, Prec - t, ?_, by omega,
        by omega, haft, ?_, ?_⟩
      · rw [if_pos hw]
        simp
      · rw [Int.toNat_of_nonneg hbnn, ← Int.neg_tdiv]
        unfold iabs
        rw [if_neg (by omega)]
      · simp only [if_true]
        rw [Int.toNat_of_nonneg hbnn, Int.toNat_of_nonneg (show (0 : Int) ≤ -aftv by omega),
          show Prec - (Prec - t) = t from by omega]
        have hr : -(v.tdiv (Pow10 Prec)) * Pow10 Prec + -aftv * Pow10 t =
            -(v.tdiv (Pow10 Prec) * Pow10 Prec + aftv * Pow10 t) := by
          ring
        rw [hr, hmul]
        linarith [hdec]
  · rw [if_neg hw]
    have ht : Prec ≤ t := by omega
    have ha0 : v.tmod (Pow10 Prec) = 0 := by
      by_contra hne
      have hav := hnz hne
      have h1 : Pow10 t ≤ |aftv| * Pow10 t := by
        have : (1 : Int) ≤ |aftv| := by
          rcases abs_pos.mpr hav with h
          omega
        nlinarith [hFt]
      have h2 : |aftv| * Pow10 t = |v.tmod (Pow10 Prec)| := by
        rw [← hmul, abs_mul, abs_of_nonneg hFt.le]
      have h3 : |v.tmod (Pow10 Prec)| < Pow10 Prec := by
        obtain ⟨hl, hu⟩ := tmod_bounds v (Pow10 Prec) hF
        rw [abs_lt]
        omega
      have h4 : Pow10 Prec ≤ Pow10 t := pow10_mono ht
      have : Pow10 t < Pow10 t := by
        calc Pow10 t ≤ |aftv| * Pow10 t := h1
        _ = |v.tmod (Pow10 Prec)| := h2
        _ < Pow10 Prec := h3
        _ ≤ Pow10 t := h4
      exact absurd this (lt_irrefl _)
    rcases le_or_lt 0 v with hv | hv
    · have hbnn : 0 ≤ v.tdiv (Pow10 Prec) := Int.tdiv_nonneg hv hF.le
      refine ⟨false, (v.tdiv (Pow10 Prec)).toNat, 0, 0, ?_, by omega, fun _ => rfl,
        by simp [Pow10], ?_, ?_⟩
      · unfold intToDigits
        rw [if_neg (not_lt.mpr hbnn)]
        simp
      · rw [Int.toNat_of_nonneg hbnn]
        unfold iabs
        rw [if_pos hv]
      · simp only [Bool.false_eq_true, if_false, Nat.cast_zero, zero_mul, add_zero]
        rw [Int.toNat_of_nonneg hbnn]
        linarith [hdec]
    · have hblt : v.tdiv (Pow10 Prec) < 0 := by
        by_contra hge
        push_neg at hge
        have : 0 ≤ Pow10 Prec * (v.tdiv (Pow10 Prec)) := mul_nonneg hF.le hge
        omega
      refine ⟨true, (-(v.tdiv (Pow10 Prec))).toNat, 0, 0, ?_, by omega, fun _ => rfl,
        by simp [Pow10], ?_, ?_⟩
      · unfold intToDigits
        rw [if_pos hblt]
        simp
      · rw [Int.toNat_of_nonneg (by omega), ← Int.neg_tdiv]
        unfold iabs
        rw [if_neg (by omega)]
      · simp only [if_true, Nat.cast_zero, zero_mul, add_zero]
        rw [Int.toNat_of_nonneg (by omega)]
        have hr : -(-(v.tdiv (Pow10 Prec)) * Pow10 Prec) = v.tdiv (Pow10 Prec) * Pow10 Prec := by
          ring
        rw [hr]
        linarith [hdec]

/-- The formatter's output always has the sign-digits-dot-padding shape, with
components that reconstruct the mantissa. -/
theorem formatDec_shape (Prec : Nat) (tz : Bool) (v : Int) :
    ∃ (neg : Bool) (befN aftN w : Nat),
      FormatDec Prec tz v =
        (if neg then ['-'] else []) ++ natToDigits befN ++
          (if 0 < w then '.' :: padDigits w aftN else []) ∧
      w ≤ Prec ∧ (w = 0 → aftN = 0) ∧ ((aftN : Int) < Pow10 w) ∧
      ((befN : Int) = (iabs v).tdiv (Pow10 Prec)) ∧
      ((if neg = true then
          -((befN : Int) * Pow10 Prec + (aftN : Int) * Pow10 (Prec - w))
        else (befN : Int) * Pow10 Prec + (aftN : Int) * Pow10 (Prec - w)) = v) := by
  cases tz with
  | true =>
    have hcore := formatDec_shape_core Prec v (v.tmod (Pow10 Prec)) 0
      (by simp [Pow10]) (fun h => h)
    obtain ⟨neg, befN, aftN, w, hsh, hrest⟩ := hcore
    exact ⟨neg, befN, aftN, w, hsh, hrest⟩
  | false =>
    rcases htr : TrimTrailingZeros Prec (v.tmod (Pow10 Prec)) with ⟨aftv, t⟩
    obtain ⟨h1, h2⟩ := trim_spec Prec (v.tmod (Pow10 Prec))
    rw [htr] at h1 h2
    dsimp only at h1 h2
    have hcore := formatDec_shape_core Prec v aftv t h1 h2
    obtain ⟨neg, befN, aftN, w, hsh, hrest⟩ := hcore
    refine ⟨neg, befN, aftN, w, ?_, hrest⟩
    have hfd : FormatDec Prec false v =
        (if 0 < Prec - (TrimTrailingZeros Prec (v.tmod (Pow10 Prec))).2 then
          (if Sign v = -1 then
            '-' :: (natToDigits (-(v.tdiv (Pow10 Prec))).toNat ++
              '.' :: padDigits (Prec - (TrimTrailingZeros Prec (v.tmod (Pow10 Prec))).2)
                (-(TrimTrailingZeros Prec (v.tmod (Pow10 Prec))).1).toNat)
          else natToDigits (v.tdiv (Pow10 Prec)).toNat ++
            '.' :: padDigits (Prec - (TrimTrailingZeros Prec (v.tmod (Pow10 Prec))).2)
              (TrimTrailingZeros Prec (v.tmod (Pow10 Prec))).1.toNat)
        else intToDigits (v.tdiv (Pow10 Prec))) := rfl
    rw [hfd, htr]
    exact hsh

/-- C4 (counterexample): at `Prec = 0` and mantissa `kMaxInt64` — a
representable decimal at the end of the mantissa range — both formatter modes
produce a 19-digit numeral that the strict parser rejects with `Overflow`, so
neither string parses back to the original decimal. -/
theorem roundtrip_extreme_counterexample :
    (Parse 0 .defP strictOpts (FormatDec 0 true kMaxInt64)).error = some .overflow ∧
    (Parse 0 .defP strictOpts (FormatDec 0 false kMaxInt64)).error = some .overflow := by
  decide

/-- C4 (amended): for every precision `0 ≤ Prec ≤ 18`, every rounding policy
and both formatter modes (`ToString`, which trims trailing zeros, and
`ToStringTrailingZeros`), strict parsing of the formatted decimal yields back
exactly the original mantissa, provided the integer part stays below the
parser's two overflow limits: `|v| / 10^Prec < 10^18` (at most 18 integer
digits) and `|v| / 10^Prec < kMaxInt64 / 10^Prec`. -/
theorem format_parse_roundtrip (Prec : Nat) (p : Policy) (tz : Bool) (v : Int)
    (hPrec : Prec ≤ 18)
    (h18 : (iabs v).tdiv (Pow10 Prec) < 10 ^ 18)
    (hmax : (iabs v).tdiv (Pow10 Prec) < kMaxInt64.tdiv (Pow10 Prec)) :
    Parse Prec p strictOpts (FormatDec Prec tz v) = ⟨v, none, 0⟩ := by
  obtain ⟨neg, befN, aftN, w, hsh, hwle, hw0, haft, hbef, hval⟩ := formatDec_shape Prec tz v
  have hbef18 : befN < 10 ^ 18 := by
    have hlt : (befN : Int) < 10 ^ 18 := by
      rw [hbef]
      exact h18
    exact_mod_cast hlt
  have haftN : aftN < 10 ^ w := by
    unfold Pow10 at haft
    exact_mod_cast haft
  obtain ⟨pos, hup⟩ := parseUnpacked_formatted strictOpts neg befN aftN w hbef18 haftN
    (le_trans hwle hPrec) hw0
  rw [← hsh] at hup
  unfold Parse
  rw [hup]
  dsimp only
  have hth : ¬(kMaxInt64.tdiv (Pow10 Prec) ≤ (befN : Int)) := by
    rw [hbef]
    omega
  rw [if_neg hth]
  have hrd : ¬(strictOpts.allowRounding = false ∧ Prec < w) := by
    intro h
    omega
  rw [if_neg hrd]
  congr 1
  unfold FromUnpacked3
  rw [if_pos hwle]
  unfold FromUnpacked2
  rcases Nat.eq_zero_or_pos Prec with hP0 | hP0
  · have hw0' : w = 0 := by omega
    subst hw0'
    have ha' : aftN = 0 := hw0 rfl
    subst ha'
    subst hP0
    rw [if_neg (lt_irrefl 0)]
    cases neg with
    | false =>
      norm_num [Pow10] at hval ⊢
      exact hval
    | true =>
      norm_num [Pow10] at hval ⊢
      omega
  · rw [if_pos hP0]
    cases neg with
    | false =>
      simpa using hval
    | true =>
      simp only [if_true]
      have hr : (-(befN : Int)) * Pow10 Prec + (-(aftN : Int)) * Pow10 (Prec - w) =
          -((befN : Int) * Pow10 Prec + (aftN : Int) * Pow10 (Prec - w)) := by
        ring
      rw [hr]
      simpa using hval

/-- C4 (witness): `Decimal<4>` with mantissa `15000` (the value `1.5`) parses
back from both formatter modes. -/
theorem format_parse_roundtrip_witness :
    Parse 4 .defP strictOpts (FormatDec 4 true 15000) = ⟨15000, none, 0⟩ ∧
    Parse 4 .defP strictOpts (FormatDec 4 false 15000) = ⟨15000, none, 0⟩ :=
  ⟨format_parse_roundtrip 4 .defP true 15000 (by norm_num) (by decide) (by decide),
    format_parse_roundtrip 4 .defP false 15000 (by norm_num) (by decide) (by decide)⟩

/-- C5: `ToInteger` rounds per the type's policy on the spec's three examples:
`Decimal<2, HalfEven>("2.5").ToInteger() = 2`,
`Decimal<2, HalfEven>("3.5").ToInteger() = 4`,
`Decimal<2, HalfUp>("2.5").ToInteger() = 3`. -/
theorem toInteger_policy_examples :
    (Parse 2 .halfEven strictOpts "2.5".toList = ⟨250, none, 0⟩ ∧
      ToInteger .halfEven 2 250 = 2) ∧
    (Parse 2 .halfEven strictOpts "3.5".toList = ⟨350, none, 0⟩ ∧
      ToInteger .halfEven 2 350 = 4) ∧
    (Parse 2 .halfUp strictOpts "2.5".toList = ⟨250, none, 0⟩ ∧
      ToInteger .halfUp 2 250 = 3) := by
  decide

/-- C7: parsing `"0.12345"` at `Prec = 4` fails with `Rounding` in strict
mode; with rounding allowed (the permissive options) it yields mantissa
`1235` (`0.1235`) under the default policy and `1234` (`0.1234`) under
`FloorRoundPolicy`. -/
theorem parse_rounding_modes_example :
    (Parse 4 .defP strictOpts "0.12345".toList).error = some .rounding ∧
    Parse 4 .defP permissiveOpts "0.12345".toList = ⟨1235, none, 0⟩ ∧
    Parse 4 .floorP permissiveOpts "0.12345".toList = ⟨1234, none, 0⟩ := by
  decide

/-- C1 (failing inputs): `DivRounded` succeeds but contradicts the policies'
stated rules (the doc comments of the policy classes themselves).
`HalfDown(-1, 2)` returns `-1` though nearest-ties-toward-zero gives `0`;
`HalfUp(-1, 2)` returns `0` though nearest-ties-away gives `-1`;
`Ceiling(5, -2)` returns `-3` though the ceiling of `-2.5` is `-2`;
`Floor(5, -2)` returns `-2` though the floor of `-2.5` is `-3`. -/
theorem halfDown_divRounded_negative_tie_bug :
    (DivRounded .halfDown (-1) 2 = (-1, true) ∧ specHalfDown ((-1 : ℚ) / 2) = 0) ∧
    (DivRounded .halfUp (-1) 2 = (0, true) ∧ specHalfUp ((-1 : ℚ) / 2) = -1) ∧
    (DivRounded .ceiling 5 (-2) = (-3, true) ∧ ⌈(5 : ℚ) / (-2)⌉ = -2) ∧
    (DivRounded .floorP 5 (-2) = (-2, true) ∧ ⌊(5 : ℚ) / (-2)⌋ = -3) := by
  have h1 : ¬(0 ≤ ((-1 : ℚ) / 2)) := by norm_num
  refine ⟨⟨by decide, ?_⟩, ⟨by decide, ?_⟩, ⟨by decide, ?_⟩, ⟨by decide, ?_⟩⟩
  · have h2 : ((-1 : ℚ) / 2 + 1 / 2) = 0 := by norm_num
    simp only [specHalfDown, if_neg h1, h2, Int.floor_zero]
  · have h2 : ((-1 : ℚ) / 2 - 1 / 2) = -1 := by norm_num
    simp only [specHalfUp, if_neg h1, h2]
    rw [show ((-1 : ℚ)) = ((-1 : Int) : ℚ) from by norm_num, Int.ceil_intCast]
  · rw [Int.ceil_eq_iff]
    norm_num
  · rw [Int.floor_eq_iff]
    constructor
    · norm_num
    · norm_num

/-- C3 (failing input): with the default policy and
`a = 3, b = 2500000000000000000, d = 4000000000000000000` the preconditions of
the claim hold (`aD = 3`, `bD = b`, both nonzero, `aD*bD = 7.5e18` does not
overflow, `a*bI = aI*bD = 0`), yet `MultDiv` returns `0`:  the inner
`DivRounded` fails its overflow guard and the code silently substitutes `0`
for the fractional contribution, whereas the claimed result is
`a*bI + aI*bD + round(aD*bD/d) = round(1.875) = 2`. -/
theorem multDiv_silently_drops_fraction :
    MultDiv .defP 3 2500000000000000000 4000000000000000000 = 0 ∧
    3 * (2500000000000000000 : Int).tdiv 4000000000000000000 +
      (3 : Int).tdiv 4000000000000000000 * 2500000000000000000 +
      specHalfUp ((3 * 2500000000000000000 : ℚ) / 4000000000000000000) = 2 := by
  refine ⟨by decide, ?_⟩
  have hq : ((3 * 2500000000000000000 : ℚ) / 4000000000000000000) = 15 / 8 := by norm_num
  have h0 : (0 : ℚ) ≤ 15 / 8 := by norm_num
  have h2 : ((15 : ℚ) / 8 + 1 / 2) = 19 / 8 := by norm_num
  rw [hq]
  simp only [specHalfUp, if_pos h0, h2, floor_nineteen_eighths]
  decide

/-- C9 (counterexample): at mantissa `kMinInt64` the claim fails: `impl::Abs`
negates `kMinInt64`, which overflows and (as two's-complement wraparound)
yields `kMinInt64` again, so `Abs(d).Sign()` is `-1`, not nonnegative, and
`Abs(d).AsUnbiased()` is not `|d.AsUnbiased()|`. -/
theorem decimalAbs_min_counterexample :
    DecimalAbs kMinInt64 = kMinInt64 ∧ Sign (DecimalAbs kMinInt64) = -1 := by
  decide

/-- C9 (amended): for every mantissa in the signed 64-bit range other than
`kMinInt64`, `Abs(d).Sign() ≥ 0` and `Abs(d).AsUnbiased() = |d.AsUnbiased()|`. -/
theorem decimalAbs_spec (v : Int) (hlo : kMinInt64 ≤ v) (hhi : v ≤ kMaxInt64)
    (hne : v ≠ kMinInt64) : 0 ≤ Sign (DecimalAbs v) ∧ DecimalAbs v = |v| := by
  simp only [kMinInt64, kMaxInt64] at hlo hhi hne
  have habs : DecimalAbs v = |v| := by
    rcases le_or_lt 0 v with h | h
    · rw [abs_of_nonneg h]
      simp [DecimalAbs, iabsWrap, h]
    · rw [abs_of_neg h]
      have hnn : ¬(0 ≤ v) := not_le.mpr h
      simp only [DecimalAbs, iabsWrap, if_neg hnn, wrap64, twoPow64]
      omega
  refine ⟨?_, habs⟩
  rw [habs]
  have hnn : 0 ≤ |v| := abs_nonneg v
  simp only [Sign]
  split
  · omega
  · split
    · omega
    · omega

/-- C9 (witness). -/
theorem decimalAbs_spec_witness :
    0 ≤ Sign (DecimalAbs (-5)) ∧ DecimalAbs (-5) = |(-5 : Int)| :=
  decimalAbs_spec (-5) (by decide) (by decide) (by decide)

/-- C8: the stream input operator is atomic on error: whenever the parse (on
the characters the stream yields, after the `skipws`-controlled whitespace
skip) reports an error, the operator sets the stream's fail bit and the
target keeps exactly its prior value; when the parse succeeds the target is
assigned the parsed value. -/
theorem opInStream_atomic (Prec : Nat) (p : Policy) (s : IStream) (d : Int) :
    ((Parse Prec p streamOpts (StreamInput (StreamWs s))).error.isSome →
      (OpInStream Prec p s d).1.failbit = true ∧ (OpInStream Prec p s d).2 = d) ∧
    ((Parse Prec p streamOpts (StreamInput (StreamWs s))).error = none →
      (OpInStream Prec p s d).2 = (Parse Prec p streamOpts (StreamInput (StreamWs s))).value) := by
  unfold OpInStream
  rcases h : (Parse Prec p streamOpts (StreamInput (StreamWs s))).error with _ | e
  · simp [h]
  · simp [h]

/-- Division bound used for the multiply-overflow predicate: for a
nonnegative dividend and positive divisor, C truncating division agrees with
Euclidean division, so the quotient comparison mirrors a product comparison. -/
theorem tdiv_lt_iff_pos {a b c : Int} (h0 : 0 ≤ a) (hc : 0 < c) :
    a.tdiv c < b ↔ a < b * c := by
  rw [Int.tdiv_eq_ediv h0 hc.le]
  exact Int.ediv_lt_iff_lt_mul hc

/-- For positive arguments, `impl::IsMultOverflowPositive` decides exactly
whether the product exceeds `kMaxInt64`. -/
theorem isMultOverflowPositive_iff {a b : Int} (ha : 0 < a) (hb : 0 < b) :
    IsMultOverflowPositive a b = true ↔ kMaxInt64 < a * b := by
  have hM : (0 : Int) ≤ kMaxInt64 := by decide
  unfold IsMultOverflowPositive
  rw [Bool.and_eq_true, decide_eq_true_eq, decide_eq_true_eq]
  constructor
  · rintro ⟨h1, _⟩
    exact (tdiv_lt_iff_pos hM hb).mp h1
  · intro h
    refine ⟨(tdiv_lt_iff_pos hM hb).mpr h, (tdiv_lt_iff_pos hM ha).mpr ?_⟩
    rwa [mul_comm] at h

/-- C2 (counterexample): at `a = kMinInt64`, `b = -1` the product is `2^63`,
outside the signed 64-bit range, yet `IsMultOverflow` reports `false`. -/
theorem isMultOverflow_min_counterexample :
    IsMultOverflow kMinInt64 (-1) = false ∧ kMaxInt64 < kMinInt64 * (-1) := by
  decide

/-- C2 (amended): over the signed 64-bit range, `IsMultOverflow(a, b)` is
`true` exactly when the exact product lies outside the range, except at the
boundary:  when one operand is `kMinInt64` and the other is `-1` it wrongly
reports `false` (the product `2^63` overflows), and it reports `true` whenever
the product is exactly `-(2^63)` (which is representable) unless one operand
is itself `kMinInt64`. -/
theorem isMultOverflow_iff (a b : Int)
    (ha1 : kMinInt64 ≤ a) (ha2 : a ≤ kMaxInt64)
    (hb1 : kMinInt64 ≤ b) (hb2 : b ≤ kMaxInt64) :
    (IsMultOverflow a b = true ↔
      ((kMaxInt64 < a * b ∧ ¬((a = kMinInt64 ∧ b = -1) ∨ (b = kMinInt64 ∧ a = -1))) ∨
        a * b < kMinInt64 ∨
        (a * b = kMinInt64 ∧ a ≠ kMinInt64 ∧ b ≠ kMinInt64))) := by
  simp only [kMinInt64, kMaxInt64] at *
  rcases lt_trichotomy a 0 with haneg | rfl | hapos
  · rcases lt_trichotomy b 0 with hbneg | rfl | hbpos
    · -- both negative
      have h0 : ¬(a = 0 ∨ b = 0) := by omega
      have da : decide (a < 0) = true := decide_eq_true haneg
      have db : decide (b < 0) = true := decide_eq_true hbneg
      rw [IsMultOverflow, if_neg h0, da, db, if_neg (by simp), if_pos ⟨haneg, hbneg⟩]
      simp only [kMinInt64, kMaxInt64]
      by_cases ham : a = -9223372036854775808
      · subst ham
        rw [if_pos rfl, decide_eq_true_eq]
        by_cases hbm : b = -1
        · subst hbm
          have ht : (-9223372036854775808 : Int) * (-1) = 9223372036854775808 := by decide
          rw [ht]
          omega
        · have hble : b ≤ -2 := by omega
          have hbig : (-9223372036854775808 : Int) * (-2) ≤ (-9223372036854775808 : Int) * b :=
            mul_le_mul_of_nonpos_left hble (by decide)
          generalize hgen : (-9223372036854775808 : Int) * b = t at hbig ⊢
          omega
      · rw [if_neg ham]
        by_cases hbm : b = -9223372036854775808
        · subst hbm
          rw [if_pos rfl, decide_eq_true_eq]
          by_cases ham1 : a = -1
          · subst ham1
            have ht : (-1 : Int) * (-9223372036854775808) = 9223372036854775808 := by decide
            rw [ht]
            omega
          · have hale : a ≤ -2 := by omega
            have hbig : (-9223372036854775808 : Int) * (-2) ≤ (-9223372036854775808 : Int) * a :=
              mul_le_mul_of_nonpos_left hale (by decide)
            rw [mul_comm] at hbig
            generalize hgen : a * (-9223372036854775808 : Int) = t at hbig ⊢
            omega
        · rw [if_neg hbm, isMultOverflowPositive_iff (by omega) (by omega)]
          simp only [kMaxInt64]
          have hpos : 0 < a * b := mul_pos_of_neg_of_neg haneg hbneg
          have hprod : -a * -b = a * b := by ring
          rw [hprod]
          generalize hgen : a * b = t at hpos ⊢
          omega
    · -- b = 0
      rw [IsMultOverflow, if_pos (Or.inr rfl)]
      simp only [mul_zero]
      constructor
      · intro h
        exact absurd h (by decide)
      · omega
    · -- a < 0 < b : different signs
      have h0 : ¬(a = 0 ∨ b = 0) := by omega
      have da : decide (a < 0) = true := decide_eq_true haneg
      have db : decide (b < 0) = false := decide_eq_false (by omega)
      rw [IsMultOverflow, if_neg h0, da, db, if_pos (by simp)]
      simp only [kMinInt64, kMaxInt64]
      by_cases ham : a = -9223372036854775808
      · subst ham
        rw [if_pos rfl, decide_eq_true_eq]
        have hle : (-9223372036854775808 : Int) * b ≤ (-9223372036854775808 : Int) * 1 :=
          mul_le_mul_of_nonpos_left (by omega) (by decide)
        have hiff : (-9223372036854775808 : Int) * b < (-9223372036854775808 : Int) * 1 ↔ 1 < b :=
          mul_lt_mul_left_of_neg (by decide)
        rw [mul_one] at hle hiff
        generalize hgen : (-9223372036854775808 : Int) * b = t at hle hiff ⊢
        omega
      · rw [if_neg ham, if_neg (by omega), if_pos haneg,
          isMultOverflowPositive_iff (by omega) hbpos]
        simp only [kMaxInt64]
        have hneg : a * b < 0 := mul_neg_of_neg_of_pos haneg hbpos
        have hprod : -a * b = -(a * b) := by ring
        rw [hprod]
        generalize hgen : a * b = t at hneg ⊢
        omega
  · -- a = 0
    rw [IsMultOverflow, if_pos (Or.inl rfl)]
    simp only [zero_mul]
    constructor
    · intro h
      exact absurd h (by decide)
    · omega
  · rcases lt_trichotomy b 0 with hbneg | rfl | hbpos
    · -- b < 0 < a : different signs
      have h0 : ¬(a = 0 ∨ b = 0) := by omega
      have da : decide (a < 0) = false := decide_eq_false (by omega)
      have db : decide (b < 0) = true := decide_eq_true hbneg
      rw [IsMultOverflow, if_neg h0, da, db, if_pos (by simp)]
      simp only [kMinInt64, kMaxInt64]
      by_cases ham : a = -9223372036854775808
      · exact absurd ham (by omega)
      · rw [if_neg ham]
        by_cases hbm : b = -9223372036854775808
        · subst hbm
          rw [if_pos rfl, decide_eq_true_eq]
          have hle : (-9223372036854775808 : Int) * a ≤ (-9223372036854775808 : Int) * 1 :=
            mul_le_mul_of_nonpos_left (by omega) (by decide)
          have hiff : (-9223372036854775808 : Int) * a < (-9223372036854775808 : Int) * 1 ↔ 1 < a :=
            mul_lt_mul_left_of_neg (by decide)
          rw [mul_one] at hle hiff
          rw [mul_comm] at hle hiff
          generalize hgen : a * (-9223372036854775808 : Int) = t at hle hiff ⊢
          omega
        · rw [if_neg hbm, if_neg (by omega), if_pos hbneg,
            isMultOverflowPositive_iff hapos (by omega)]
          simp only [kMaxInt64]
          have hneg : a * b < 0 := mul_neg_of_pos_of_neg hapos hbneg
          have hprod : a * -b = -(a * b) := by ring
          rw [hprod]
          generalize hgen : a * b = t at hneg ⊢
          omega
    · -- b = 0
      rw [IsMultOverflow, if_pos (Or.inr rfl)]
      simp only [mul_zero]
      constructor
      · intro h
        exact absurd h (by decide)
      · omega
    · -- both positive
      have h0 : ¬(a = 0 ∨ b = 0) := by omega
      have da : decide (a < 0) = false := decide_eq_false (by omega)
      have db : decide (b < 0) = false := decide_eq_false (by omega)
      rw [IsMultOverflow, if_neg h0, da, db, if_neg (by simp), if_neg (by omega),
        isMultOverflowPositive_iff hapos hbpos]
      simp only [kMaxInt64]
      have hpos : 0 < a * b := mul_pos hapos hbpos
      generalize hgen : a * b = t at hpos ⊢
      omega

/-- C2 (witness): at `a = 3`, `b = 4` the predicate and the characterization
agree (no overflow). -/
theorem isMultOverflow_iff_witness :
    IsMultOverflow 3 4 = true ↔
      ((kMaxInt64 < 3 * 4 ∧ ¬(((3 : Int) = kMinInt64 ∧ (4 : Int) = -1) ∨
          ((4 : Int) = kMinInt64 ∧ (3 : Int) = -1))) ∨
        (3 * 4 : Int) < kMinInt64 ∨
        ((3 * 4 : Int) = kMinInt64 ∧ (3 : Int) ≠ kMinInt64 ∧ (4 : Int) ≠ kMinInt64)) :=
  isMultOverflow_iff 3 4 (by decide) (by decide) (by decide) (by decide)

/-- The trailing-junk scan never looks past a NUL character. -/
theorem junkScan_append_nul (e : Option PErr) (p : Int) (l j : List Char) :
    junkScan e p (l ++ '\x00' :: j) = junkScan e p l := by
  induction l generalizing e p with
  | nil => simp [junkScan]
  | cons c rest ih =>
    simp only [List.cons_append, junkScan]
    split
    · rfl
    · split
      · rfl
      · exact ih _ _

/-- The main parsing loop never looks past a NUL character: running it on
`l ++ '\0' :: j` gives the run on `l`, with the pushed-back remainder (if any)
extended by the unread characters. -/
theorem mainLoop_append_nul (opts : POpts) (st : PState) (a : PAcc) (l j : List Char) :
    mainLoop opts st a (l ++ '\x00' :: j) = extendRem ('\x00' :: j) (mainLoop opts st a l) := by
  induction l generalizing st a with
  | nil =>
    simp [mainLoop, extendRem]
  | cons c rest ih =>
    simp only [List.cons_append, mainLoop]
    split
    · rfl
    · cases stepChar opts st (if a.err = none then { a with pos := a.pos + 1 } else a) c with
      | cont st' a2 => exact ih st' a2
      | ended a2 => rfl

/-- C10: the parser treats `'\0'` as end of input.  In full generality,
`ParseUnpacked` and `Parse` on `l ++ '\0' :: junk` agree exactly (value,
error and position) with the run on `l` alone, for every option set; in
particular strict parsing of `"3.14\0junk"` succeeds with the value of the
prefix, although the same junk without the NUL is rejected as
`TrailingJunk`. -/
theorem parse_stops_at_first_nul :
    (∀ (opts : POpts) (l j : List Char),
        ParseUnpacked opts (l ++ '\x00' :: j) = ParseUnpacked opts l) ∧
    (∀ (Prec : Nat) (p : Policy) (opts : POpts) (l j : List Char),
        Parse Prec p opts (l ++ '\x00' :: j) = Parse Prec p opts l) ∧
    Parse 4 .defP strictOpts "3.14\x00junk".toList = ⟨31400, none, 0⟩ ∧
    (Parse 4 .defP strictOpts "3.14junk".toList).error = some .trailingJunk := by
  have hu : ∀ (opts : POpts) (l j : List Char),
      ParseUnpacked opts (l ++ '\x00' :: j) = ParseUnpacked opts l := by
    intro opts l j
    unfold ParseUnpacked
    rw [mainLoop_append_nul]
    rcases h : mainLoop opts .signS {} l with ⟨a, st, rem⟩
    rcases rem with _ | ⟨c, r⟩
    · rfl
    · simp only [extendRem]
      have hsc : c :: (r ++ '\x00' :: j) = (c :: r) ++ '\x00' :: j := rfl
      rw [hsc, junkScan_append_nul]
  refine ⟨hu, ?_, by decide, by decide⟩
  intro Prec p opts l j
  unfold Parse
  rw [hu]

/-- C8 (witness): a stream holding `"abc"` fails the parse, the fail bit is
set and the target value `777` is preserved. -/
theorem opInStream_atomic_witness :
    (OpInStream 4 .defP ⟨"abc".toList, false, true⟩ 777).1.failbit = true ∧
    (OpInStream 4 .defP ⟨"abc".toList, false, true⟩ 777).2 = 777 :=
  (opInStream_atomic 4 .defP ⟨"abc".toList, false, true⟩ 777).1 (by decide)

end Decimal64
